import Mathlib

/-!
Verification of the mention-resolution and recency-weighted ranking pipeline
of the nba-trade-rumor-rankings repository.

The Python sources are shallowly embedded as executable Lean definitions:

* text is `String` (Lean strings are lists of Unicode code points, matching
  Python string semantics for the ASCII-level operations the code uses;
  slicing `s[:n]`, `len`, `.upper()`, `.lower()`, `.strip()` and whitespace
  `.split()` are modelled character-by-character on `String.data`);
* calendar dates are `Int` day numbers (the code compares dates and ISO date
  strings, and both orders agree with the day-number order; `timedelta(days=n)`
  is integer subtraction);
* pandas and dict operations are modelled on lists: `drop_duplicates`
  (keep the first row of each key) as a keyed first-seen deduplication,
  `groupby(sort=True)` as sorted unique keys with per-key filtered counts, and
  `sort_values` / `list.sort` as a stable insertion sort by the same key;
* floats never lose precision in this program (all weights are quarters and
  `round(x, 2)` is exact on them), so scores are modelled as `ℚ`.

Team-metadata fields (`team` columns and the hard-coded player-team tables)
are omitted: they feed no date, count, score, or ordering computation.
-/

/-! ## Generic text helpers (Python string operations, character-level) -/

/-- Python `s.lower()` restricted to the ASCII case mapping used by the data. -/
def pyLower (s : String) : String :=
  String.mk (s.data.map Char.toLower)

/-- Python `s.upper()` restricted to the ASCII case mapping used by the data. -/
def pyUpper (s : String) : String :=
  String.mk (s.data.map Char.toUpper)

/-- Python `s[:n]`: the first `n` code points of `s`. -/
def pyTake (s : String) (n : Nat) : String :=
  String.mk (s.data.take n)

/-- Drop leading whitespace characters. -/
def trimLeadWs (l : List Char) : List Char :=
  l.dropWhile (·.isWhitespace)

/-- Python `s.strip()`: drop leading and trailing whitespace. -/
def pyStrip (s : String) : String :=
  String.mk (trimLeadWs ((trimLeadWs s.data.reverse).reverse))

/-- Helper for Python whitespace `split()`: accumulate the current word
(reversed) and split on runs of whitespace, discarding empty pieces. -/
def splitWsGo (cur : List Char) : List Char → List (List Char)
  | [] => if cur = [] then [] else [cur.reverse]
  | c :: cs =>
    if c.isWhitespace then
      if cur = [] then splitWsGo [] cs else cur.reverse :: splitWsGo [] cs
    else
      splitWsGo (c :: cur) cs

/-- Python `s.split()` with no argument: split on whitespace runs, no empties. -/
def pySplitWs (s : String) : List String :=
  (splitWsGo [] s.data).map String.mk

/-- Python `s.capitalize()`: first character upper-cased, the rest lower-cased. -/
def pyCapitalize (s : String) : String :=
  match s.data with
  | [] => ""
  | c :: cs => String.mk (c.toUpper :: cs.map Char.toLower)

/-- Python `pre in s` substring test, on code-point lists. -/
def hasSubstr (pat : List Char) : List Char → Bool
  | [] => pat.isPrefixOf []
  | c :: rest => pat.isPrefixOf (c :: rest) || hasSubstr pat rest

/-- Python `s.startswith(pre)`. -/
def pyStartsWith (s pre : String) : Bool :=
  pre.data.isPrefixOf s.data

/-- Python string `<` (lexicographic by code point), on code-point lists. -/
def chLt : List Char → List Char → Bool
  | _, [] => false
  | [], _ :: _ => true
  | a :: as, b :: bs => if a < b then true else if a = b then chLt as bs else false

/-- Python string `<=` (lexicographic by code point), on code-point lists. -/
def chLe (a b : List Char) : Bool :=
  chLt a b || a = b

/-! ## Generic keyed first-seen deduplication

Models pandas `drop_duplicates(subset=cols)` (default `keep="first"`): the
first row carrying each key survives, every later row with a seen key is
dropped. -/

/-- Worker for `dedupeBy`: `seen` is the list of keys already emitted. -/
def dedupeByGo {α κ : Type} [DecidableEq κ] (key : α → κ) (seen : List κ) :
    List α → List α
  | [] => []
  | x :: xs =>
    if key x ∈ seen then dedupeByGo key seen xs
    else x :: dedupeByGo key (key x :: seen) xs

/-- Keep the first element of each key, drop later elements with a seen key. -/
def dedupeBy {α κ : Type} [DecidableEq κ] (key : α → κ) (l : List α) : List α :=
  dedupeByGo key [] l

theorem dedupeByGo_sublist {α κ : Type} [DecidableEq κ] (key : α → κ) :
    ∀ (l : List α) (seen : List κ), List.Sublist (dedupeByGo key seen l) l := by
  intro l
  induction l with
  | nil => intro seen; simp [dedupeByGo]
  | cons x xs ih =>
    intro seen
    rw [dedupeByGo]
    by_cases hx : key x ∈ seen
    · rw [if_pos hx]; exact (ih seen).cons x
    · rw [if_neg hx]; exact (ih (key x :: seen)).cons₂ x

theorem dedupeBy_sublist {α κ : Type} [DecidableEq κ] (key : α → κ)
    (l : List α) : List.Sublist (dedupeBy key l) l :=
  dedupeByGo_sublist key l []

theorem dedupeByGo_key_not_seen {α κ : Type} [DecidableEq κ] (key : α → κ) :
    ∀ (l : List α) (seen : List κ) (r : α), r ∈ dedupeByGo key seen l →
      key r ∉ seen := by
  intro l
  induction l with
  | nil => intro seen r hr; simp [dedupeByGo] at hr
  | cons x xs ih =>
    intro seen r hr
    rw [dedupeByGo] at hr
    by_cases hx : key x ∈ seen
    · rw [if_pos hx] at hr; exact ih seen r hr
    · rw [if_neg hx] at hr
      rcases List.mem_cons.mp hr with h | h
      · subst h; exact hx
      · intro hmem
        exact ih (key x :: seen) r h (List.mem_cons_of_mem _ hmem)

theorem dedupeByGo_pairwise {α κ : Type} [DecidableEq κ] (key : α → κ) :
    ∀ (l : List α) (seen : List κ),
      (dedupeByGo key seen l).Pairwise (fun a b => key a ≠ key b) := by
  intro l
  induction l with
  | nil => intro seen; simp [dedupeByGo]
  | cons x xs ih =>
    intro seen
    rw [dedupeByGo]
    by_cases hx : key x ∈ seen
    · rw [if_pos hx]; exact ih seen
    · rw [if_neg hx]
      refine List.Pairwise.cons ?_ (ih (key x :: seen))
      intro b hb hxb
      exact dedupeByGo_key_not_seen key xs (key x :: seen) b hb
        (by rw [← hxb]; exact List.mem_cons_self _ _)

theorem dedupeBy_pairwise {α κ : Type} [DecidableEq κ] (key : α → κ)
    (l : List α) : (dedupeBy key l).Pairwise (fun a b => key a ≠ key b) :=
  dedupeByGo_pairwise key l []

theorem dedupeByGo_eq_self {α κ : Type} [DecidableEq κ] (key : α → κ) :
    ∀ (l : List α) (seen : List κ),
      l.Pairwise (fun a b => key a ≠ key b) → (∀ a ∈ l, key a ∉ seen) →
      dedupeByGo key seen l = l := by
  intro l
  induction l with
  | nil => intro seen _ _; rfl
  | cons x xs ih =>
    intro seen hp hs
    rw [List.pairwise_cons] at hp
    rw [dedupeByGo, if_neg (hs x (List.mem_cons_self _ _))]
    congr 1
    refine ih (key x :: seen) hp.2 ?_
    intro a ha
    rw [List.mem_cons]
    rintro (h | h)
    · exact hp.1 a ha h.symm
    · exact hs a (List.mem_cons_of_mem _ ha) h

theorem dedupeBy_idem {α κ : Type} [DecidableEq κ] (key : α → κ)
    (l : List α) : dedupeBy key (dedupeBy key l) = dedupeBy key l :=
  dedupeByGo_eq_self key _ [] (dedupeBy_pairwise key l) (by simp)

theorem dedupeByGo_mem_find? {α κ : Type} [DecidableEq κ] (key : α → κ) :
    ∀ (l : List α) (seen : List κ), ∀ r ∈ dedupeByGo key seen l,
      l.find? (fun x => key x = key r) = some r := by
  intro l
  induction l with
  | nil => intro seen r hr; simp [dedupeByGo] at hr
  | cons x xs ih =>
    intro seen r hr
    rw [dedupeByGo] at hr
    by_cases hx : key x ∈ seen
    · rw [if_pos hx] at hr
      have hrk : key r ∉ seen := dedupeByGo_key_not_seen key xs seen r hr
      have hne : key x ≠ key r := fun h => hrk (h ▸ hx)
      rw [List.find?_cons_of_neg _ (by simpa using hne)]
      exact ih seen r hr
    · rw [if_neg hx] at hr
      rcases List.mem_cons.mp hr with h | h
      · subst h
        exact List.find?_cons_of_pos _ (by simp)
      · have hrk : key r ∉ key x :: seen :=
          dedupeByGo_key_not_seen key xs (key x :: seen) r h
        have hne : key x ≠ key r := by
          intro hxe
          exact hrk (hxe ▸ List.mem_cons_self _ _)
        rw [List.find?_cons_of_neg _ (by simpa using hne)]
        exact ih (key x :: seen) r h

theorem dedupeBy_mem_find? {α κ : Type} [DecidableEq κ] (key : α → κ)
    (l : List α) : ∀ r ∈ dedupeBy key l,
      l.find? (fun x => key x = key r) = some r :=
  dedupeByGo_mem_find? key l []

/-! ## Lexicographic order on code-point lists

Python compares strings lexicographically by code point; these lemmas make
`chLt` / `chLe` usable as a sort comparator. -/

theorem chLt_irrefl : ∀ a : List Char, chLt a a = false := by
  intro a
  induction a with
  | nil => rfl
  | cons x as ih => simp [chLt, ih]

theorem chLt_trans : ∀ a b c : List Char,
    chLt a b = true → chLt b c = true → chLt a c = true := by
  intro a
  induction a with
  | nil =>
    intro b c hab hbc
    cases b with
    | nil => simp [chLt] at hab
    | cons y bs =>
      cases c with
      | nil => simp [chLt] at hbc
      | cons z cs => simp [chLt]
  | cons x as ih =>
    intro b c hab hbc
    cases b with
    | nil => simp [chLt] at hab
    | cons y bs =>
      cases c with
      | nil => simp [chLt] at hbc
      | cons z cs =>
        simp only [chLt] at hab hbc ⊢
        by_cases hxy : x < y
        · rw [if_pos hxy] at hab
          by_cases hyz : y < z
          · rw [if_pos (lt_trans hxy hyz)]
          · rw [if_neg hyz] at hbc
            by_cases hyz2 : y = z
            · subst hyz2
              rw [if_pos hxy]
            · rw [if_neg hyz2] at hbc
              exact absurd hbc (by simp)
        · rw [if_neg hxy] at hab
          by_cases hxy2 : x = y
          · rw [if_pos hxy2] at hab
            subst hxy2
            by_cases hyz : x < z
            · rw [if_pos hyz]
            · rw [if_neg hyz] at hbc ⊢
              by_cases hyz2 : x = z
              · rw [if_pos hyz2] at hbc ⊢
                exact ih bs cs hab hbc
              · rw [if_neg hyz2] at hbc
                exact absurd hbc (by simp)
          · rw [if_neg hxy2] at hab
            exact absurd hab (by simp)

theorem chLt_connex : ∀ a b : List Char,
    chLt a b = false → chLt b a = false → a = b := by
  intro a
  induction a with
  | nil =>
    intro b hab _
    cases b with
    | nil => rfl
    | cons y bs => simp [chLt] at hab
  | cons x as ih =>
    intro b hab hba
    cases b with
    | nil => simp [chLt] at hba
    | cons y bs =>
      simp only [chLt] at hab hba
      by_cases hxy : x < y
      · rw [if_pos hxy] at hab
        exact absurd hab (by simp)
      · rw [if_neg hxy] at hab
        by_cases hyx : y < x
        · rw [if_pos hyx] at hba
          exact absurd hba (by simp)
        · rw [if_neg hyx] at hba
          have hxe : x = y := le_antisymm (not_lt.mp hyx) (not_lt.mp hxy)
          subst hxe
          rw [if_pos rfl] at hab hba
          rw [ih bs hab hba]

theorem chLe_refl (a : List Char) : chLe a a = true := by
  simp [chLe]

theorem chLe_trans {a b c : List Char}
    (hab : chLe a b = true) (hbc : chLe b c = true) : chLe a c = true := by
  simp only [chLe, Bool.or_eq_true, decide_eq_true_eq] at hab hbc ⊢
  rcases hab with hab | hab
  · rcases hbc with hbc | hbc
    · exact Or.inl (chLt_trans a b c hab hbc)
    · subst hbc; exact Or.inl hab
  · subst hab
    exact hbc

theorem chLe_total (a b : List Char) : chLe a b = true ∨ chLe b a = true := by
  simp only [chLe, Bool.or_eq_true, decide_eq_true_eq]
  by_cases h1 : chLt a b = true
  · exact Or.inl (Or.inl h1)
  · by_cases h2 : chLt b a = true
    · exact Or.inr (Or.inl h2)
    · exact Or.inl (Or.inr (chLt_connex a b
        (Bool.not_eq_true _ ▸ h1) (Bool.not_eq_true _ ▸ h2)))

theorem chLe_antisymm {a b : List Char}
    (hab : chLe a b = true) (hba : chLe b a = true) : a = b := by
  simp only [chLe, Bool.or_eq_true, decide_eq_true_eq] at hab hba
  rcases hab with hab | hab
  · rcases hba with hba | hba
    · have h1 := chLt_trans a b a hab hba
      rw [chLt_irrefl] at h1
      exact absurd h1 (by simp)
    · exact hba.symm
  · exact hab

/-! ## Stable insertion sort

Python `list.sort` / `sorted` and pandas `sort_values` sort deterministically
by a key; the pipeline's sort keys include the unique player name, so any
correct sort produces the same order. A stable insertion sort keeps the
embedding kernel-computable. -/

/-- Insert `x` into `l`, before the first element it is `le`-below-or-equal. -/
def insertLe {α : Type} (le : α → α → Bool) (x : α) : List α → List α
  | [] => [x]
  | y :: ys => if le x y then x :: y :: ys else y :: insertLe le x ys

/-- Stable insertion sort by the boolean comparator `le`. -/
def insSort {α : Type} (le : α → α → Bool) : List α → List α
  | [] => []
  | x :: xs => insertLe le x (insSort le xs)

theorem mem_insertLe {α : Type} (le : α → α → Bool) (x : α) :
    ∀ (l : List α) (a : α), a ∈ insertLe le x l ↔ a = x ∨ a ∈ l := by
  intro l
  induction l with
  | nil => intro a; simp [insertLe]
  | cons y ys ih =>
    intro a
    rw [insertLe]
    by_cases h : le x y = true
    · rw [if_pos h]; simp
    · rw [if_neg h]
      simp only [List.mem_cons, ih]
      tauto

theorem mem_insSort {α : Type} (le : α → α → Bool) :
    ∀ (l : List α) (a : α), a ∈ insSort le l ↔ a ∈ l := by
  intro l
  induction l with
  | nil => intro a; simp [insSort]
  | cons x xs ih =>
    intro a
    rw [insSort, mem_insertLe]
    simp [ih]

theorem pairwise_insertLe {α : Type} (le : α → α → Bool)
    (htrans : ∀ a b c, le a b = true → le b c = true → le a c = true)
    (htotal : ∀ a b, le a b = true ∨ le b a = true) (x : α) :
    ∀ l : List α, l.Pairwise (fun a b => le a b = true) →
      (insertLe le x l).Pairwise (fun a b => le a b = true) := by
  intro l
  induction l with
  | nil => intro _; simp [insertLe]
  | cons y ys ih =>
    intro hp
    rw [List.pairwise_cons] at hp
    rw [insertLe]
    by_cases h : le x y = true
    · rw [if_pos h]
      refine List.Pairwise.cons ?_ (List.Pairwise.cons hp.1 hp.2)
      intro b hb
      rcases List.mem_cons.mp hb with hby | hbys
      · subst hby; exact h
      · exact htrans x y b h (hp.1 b hbys)
    · rw [if_neg h]
      refine List.Pairwise.cons ?_ (ih hp.2)
      intro b hb
      rcases (mem_insertLe le x ys b).mp hb with hbx | hbys
      · subst hbx
        rcases htotal y b with hyb | hby
        · exact hyb
        · exact absurd hby h
      · exact hp.1 b hbys

/-- Lexicographic step on a linearly ordered component: strictly smaller wins,
strictly greater loses, ties defer to `rest`. -/
def ltThen {α : Type} [LinearOrder α] (a b : α) (rest : Bool) : Bool :=
  if a < b then true else if b < a then false else rest

theorem ltThen_iff {α : Type} [LinearOrder α] (a b : α) (rest : Bool) :
    ltThen a b rest = true ↔ (a < b ∨ (a = b ∧ rest = true)) := by
  unfold ltThen
  by_cases h1 : a < b
  · rw [if_pos h1]; simp [h1]
  · rw [if_neg h1]
    by_cases h2 : b < a
    · rw [if_pos h2]
      constructor
      · intro h; exact absurd h (by simp)
      · rintro (h | ⟨he, _⟩)
        · exact absurd h h1
        · exact absurd he (ne_of_gt h2)
    · rw [if_neg h2]
      have he : a = b := le_antisymm (not_lt.mp h2) (not_lt.mp h1)
      constructor
      · intro h; exact Or.inr ⟨he, h⟩
      · rintro (h | ⟨_, h⟩)
        · exact absurd h h1
        · exact h

/-- Lexicographic step on a code-point-list component. -/
def chThen (a b : List Char) (rest : Bool) : Bool :=
  if chLt a b then true else if chLt b a then false else rest

theorem chThen_iff (a b : List Char) (rest : Bool) :
    chThen a b rest = true ↔ (chLt a b = true ∨ (a = b ∧ rest = true)) := by
  unfold chThen
  by_cases h1 : chLt a b = true
  · rw [if_pos h1]; simp [h1]
  · rw [if_neg h1]
    by_cases h2 : chLt b a = true
    · rw [if_pos h2]
      constructor
      · intro h; exact absurd h (by simp)
      · rintro (h | ⟨he, _⟩)
        · exact absurd h h1
        · subst he; rw [chLt_irrefl] at h2; exact absurd h2 (by simp)
    · rw [if_neg h2]
      have he : a = b :=
        chLt_connex a b (Bool.not_eq_true _ ▸ h1) (Bool.not_eq_true _ ▸ h2)
      constructor
      · intro h; exact Or.inr ⟨he, h⟩
      · rintro (h | ⟨_, h⟩)
        · exact absurd h h1
        · exact h

theorem pairwise_insSort {α : Type} (le : α → α → Bool)
    (htrans : ∀ a b c, le a b = true → le b c = true → le a c = true)
    (htotal : ∀ a b, le a b = true ∨ le b a = true) :
    ∀ l : List α, (insSort le l).Pairwise (fun a b => le a b = true) := by
  intro l
  induction l with
  | nil => simp [insSort]
  | cons x xs ih =>
    rw [insSort]
    exact pairwise_insertLe le htrans htotal x _ ih

/-- Comparator for Python tuple keys of the shape
`(rational, integer, string)` compared ascending lexicographically; both
ranking sorts in the repository use keys of this shape. -/
def tripLE (p q : ℚ × Int × List Char) : Bool :=
  ltThen p.1 q.1 (ltThen p.2.1 q.2.1 (chLe p.2.2 q.2.2))

theorem tripLE_trans (p q r : ℚ × Int × List Char)
    (hpq : tripLE p q = true) (hqr : tripLE q r = true) : tripLE p r = true := by
  unfold tripLE at hpq hqr ⊢
  rw [ltThen_iff] at hpq hqr ⊢
  rcases hpq with h1 | ⟨he1, h1⟩
  · rcases hqr with h2 | ⟨he2, _⟩
    · exact Or.inl (lt_trans h1 h2)
    · exact Or.inl (he2 ▸ h1)
  · rcases hqr with h2 | ⟨he2, h2⟩
    · exact Or.inl (he1 ▸ h2)
    · refine Or.inr ⟨he1.trans he2, ?_⟩
      rw [ltThen_iff] at h1 h2 ⊢
      rcases h1 with h1 | ⟨hf1, h1⟩
      · rcases h2 with h2 | ⟨hf2, _⟩
        · exact Or.inl (lt_trans h1 h2)
        · exact Or.inl (hf2 ▸ h1)
      · rcases h2 with h2 | ⟨hf2, h2⟩
        · exact Or.inl (hf1 ▸ h2)
        · exact Or.inr ⟨hf1.trans hf2, chLe_trans h1 h2⟩

theorem tripLE_total (p q : ℚ × Int × List Char) :
    tripLE p q = true ∨ tripLE q p = true := by
  unfold tripLE
  rw [ltThen_iff, ltThen_iff, ltThen_iff, ltThen_iff]
  rcases lt_trichotomy p.1 q.1 with h | h | h
  · exact Or.inl (Or.inl h)
  · rcases lt_trichotomy p.2.1 q.2.1 with h2 | h2 | h2
    · exact Or.inl (Or.inr ⟨h, Or.inl h2⟩)
    · rcases chLe_total p.2.2 q.2.2 with h3 | h3
      · exact Or.inl (Or.inr ⟨h, Or.inr ⟨h2, h3⟩⟩)
      · exact Or.inr (Or.inr ⟨h.symm, Or.inr ⟨h2.symm, h3⟩⟩)
    · exact Or.inr (Or.inr ⟨h.symm, Or.inl h2⟩)
  · exact Or.inr (Or.inl h)

/-- Comparator for pandas group keys `(player, slug)` sorted ascending. -/
def pairLE (p q : String × String) : Bool :=
  chThen p.1.data q.1.data (chLe p.2.data q.2.data)

theorem pairLE_trans (p q r : String × String)
    (hpq : pairLE p q = true) (hqr : pairLE q r = true) : pairLE p r = true := by
  unfold pairLE at hpq hqr ⊢
  rw [chThen_iff] at hpq hqr ⊢
  rcases hpq with h1 | ⟨he1, h1⟩
  · rcases hqr with h2 | ⟨he2, _⟩
    · exact Or.inl (chLt_trans _ _ _ h1 h2)
    · exact Or.inl (he2 ▸ h1)
  · rcases hqr with h2 | ⟨he2, h2⟩
    · exact Or.inl (he1 ▸ h2)
    · exact Or.inr ⟨he1.trans he2, chLe_trans h1 h2⟩

theorem pairLE_total (p q : String × String) :
    pairLE p q = true ∨ pairLE q p = true := by
  unfold pairLE
  rw [chThen_iff, chThen_iff]
  by_cases h1 : chLt p.1.data q.1.data = true
  · exact Or.inl (Or.inl h1)
  · by_cases h2 : chLt q.1.data p.1.data = true
    · exact Or.inr (Or.inl h2)
    · have he : p.1.data = q.1.data :=
        chLt_connex _ _ (Bool.not_eq_true _ ▸ h1) (Bool.not_eq_true _ ▸ h2)
      rcases chLe_total p.2.data q.2.data with h3 | h3
      · exact Or.inl (Or.inr ⟨he, h3⟩)
      · exact Or.inr (Or.inr ⟨he.symm, h3⟩)

/-- Python `round(x, 2)` on a rational: round `x * 100` to the nearest integer
and divide back. The scores of this program are integer multiples of `1/4`, on
which this map is the identity (`roundQ2_quarters`), so the tie-breaking rule
of Python `round` never matters here. -/
def roundQ2 (q : ℚ) : ℚ :=
  ((round (q * 100) : ℤ) : ℚ) / 100

theorem roundQ2_quarters (a b c : ℕ) :
    roundQ2 ((a : ℚ) * 1 + (b : ℚ) * (1 / 2) + (c : ℚ) * (1 / 4))
      = (a : ℚ) * 1 + (b : ℚ) * (1 / 2) + (c : ℚ) * (1 / 4) := by
  unfold roundQ2
  have h : ((a : ℚ) * 1 + (b : ℚ) * (1 / 2) + (c : ℚ) * (1 / 4)) * 100
      = ((100 * a + 50 * b + 25 * c : ℤ) : ℚ) := by
    push_cast
    ring
  rw [h, round_intCast]
  push_cast
  field_simp
  ring

/-! ## Properties of Python `strip` -/

theorem trimLeadWs_head_false :
    ∀ (l : List Char) (c : Char) (t : List Char),
      trimLeadWs l = c :: t → c.isWhitespace = false := by
  intro l
  induction l with
  | nil => intro c t h; simp [trimLeadWs] at h
  | cons x xs ih =>
    intro c t h
    rw [trimLeadWs, List.dropWhile_cons] at h
    by_cases hx : x.isWhitespace = true
    · rw [if_pos hx] at h
      exact ih c t h
    · rw [if_neg hx] at h
      cases h
      simpa using hx

theorem trimLeadWs_of_head_false (l : List Char) (c : Char)
    (hhead : l.head? = some c) (hc : c.isWhitespace = false) :
    trimLeadWs l = l := by
  cases l with
  | nil => rfl
  | cons x xs =>
    rw [List.head?] at hhead
    cases hhead
    rw [trimLeadWs, List.dropWhile_cons, if_neg (by simp [hc])]

theorem trimLeadWs_trimLeadWs (l : List Char) :
    trimLeadWs (trimLeadWs l) = trimLeadWs l := by
  cases he : trimLeadWs l with
  | nil => rfl
  | cons c t =>
    exact trimLeadWs_of_head_false _ c rfl
      (trimLeadWs_head_false l c t he)

theorem getLast?_of_suffix {α : Type} {v w : List α}
    (h : v <:+ w) (hv : v ≠ []) : v.getLast? = w.getLast? := by
  obtain ⟨pre, rfl⟩ := h
  rw [List.getLast?_append_of_ne_nil pre hv]

theorem stripChars_idem (l : List Char) :
    trimLeadWs ((trimLeadWs (trimLeadWs ((trimLeadWs l.reverse).reverse)).reverse).reverse)
      = trimLeadWs ((trimLeadWs l.reverse).reverse) := by
  set u : List Char := trimLeadWs l.reverse with hu
  set v : List Char := trimLeadWs u.reverse with hv
  clear_value u v
  by_cases hvnil : v = []
  · rw [hvnil]
    rfl
  · have hAv : trimLeadWs v.reverse = v.reverse := by
      have hsuf : v <:+ u.reverse := by
        rw [hv]; exact List.dropWhile_suffix _
      have hunil : u ≠ [] := by
        intro h
        rw [h] at hv
        exact hvnil (by rw [hv]; rfl)
      obtain ⟨c, hc⟩ : ∃ c, u.head? = some c := by
        cases hue : u with
        | nil => exact absurd hue hunil
        | cons x xs => exact ⟨x, rfl⟩
      have hcw : c.isWhitespace = false := by
        cases hue : u with
        | nil => exact absurd hue hunil
        | cons x xs =>
          rw [hue] at hc
          cases hc
          exact trimLeadWs_head_false l.reverse _ _ (hu.symm.trans hue)
      have hlast : v.getLast? = some c := by
        rw [getLast?_of_suffix hsuf hvnil, List.getLast?_reverse, hc]
      have hhead : v.reverse.head? = some c := by
        rw [List.head?_reverse, hlast]
      exact trimLeadWs_of_head_false _ c hhead hcw
    rw [hAv, List.reverse_reverse, hv]
    exact trimLeadWs_trimLeadWs u.reverse

theorem pyStrip_idem (s : String) : pyStrip (pyStrip s) = pyStrip s := by
  show String.mk _ = String.mk _
  rw [pyStrip]
  exact congrArg String.mk (stripChars_idem s.data)

/-! ## Embedding of src/scrape_trade_rumors.py

The HTTP fetch and BeautifulSoup parsing collaborators hand the core a list
of candidate fragments per page; a fragment carries the parse result of its
nearest date holder (`none` when no holder was found or `dateutil` failed),
the plain snippet text, and the first link (href plus link text).
The `team` and `source` CSV columns (from `guess_teams` and
`extract_source_from_url`) are presentation metadata never read by scoring,
dedup keys, or ranking, and are omitted. -/

/-- Candidate fragment of one `div.rumor`, as handed over by the parser. -/
structure Frag where
  date : Option Int
  snippet : String
  url : Option String
  linkText : String
deriving DecidableEq

/-- Row of `trade_rumors.csv` (metadata columns omitted, see above). -/
structure RumorRow where
  date : Int
  player : String
  snippet : String
  url : String
  title : String
deriving DecidableEq

/-- Python `max(matches, key=len)` over `m :: rest`: the first element of
maximal length wins (later elements replace only on strictly greater length). -/
def pyMaxByLen (m : String) (rest : List String) : String :=
  rest.foldl (fun best x => if best.length < x.length then x else best) m

/-- Python `s[n:]`: drop the first `n` code points. -/
def pyDrop (s : String) (n : Nat) : String :=
  String.mk (s.data.drop n)

/-- Title-case one uppercase name part, special-casing the Mc/De/Le/La
prefixes exactly as `guess_player` does. -/
def formatPart (part : String) : String :=
  if pyStartsWith part "MC" then "Mc" ++ pyCapitalize (pyDrop part 2)
  else if pyStartsWith part "DE" && decide (2 < part.length) then
    "De" ++ pyCapitalize (pyDrop part 2)
  else if pyStartsWith part "LE" && decide (2 < part.length) then
    "Le" ++ pyCapitalize (pyDrop part 2)
  else if pyStartsWith part "LA" && decide (2 < part.length) then
    "La" ++ pyCapitalize (pyDrop part 2)
  else pyCapitalize part

/-- Python `" ".join(parts)`. -/
def joinSpace : List String → String
  | [] => ""
  | p :: rest => rest.foldl (fun acc q => acc ++ " " ++ q) p

/-- Re-format an uppercase roster match into display case (`guess_player`,
second half). -/
def formatGuessName (bestMatch : String) : String :=
  joinSpace ((pySplitWs bestMatch).map formatPart)

/-- The `guess_player(snippet, players_upper)` function of
src/scrape_trade_rumors.py: collect every roster name (stored uppercase)
occurring as a substring of the uppercased snippet, pick the longest match,
and re-format it; `none` when the snippet is empty or nothing matches. -/
def guessPlayer (snippet : String) (playersUpper : List String) : Option String :=
  if snippet = "" then none
  else
    match playersUpper.filter
        (fun nameUpper => hasSubstr nameUpper.data (pyUpper snippet).data) with
    | [] => none
    | m :: rest => some (formatGuessName (pyMaxByLen m rest))

/-- Per-fragment body of the `scrape_page` loop of src/scrape_trade_rumors.py:
skip a fragment with no resolvable date, skip (and flag, handled separately)
one dated before the cutoff, skip one with no resolvable player, otherwise
build the CSV row. -/
def rowOfFrag (cutoff : Int) (playersUpper : List String) (f : Frag) :
    Option RumorRow :=
  match f.date with
  | none => none
  | some d =>
    if d < cutoff then none
    else
      match guessPlayer f.snippet playersUpper with
      | none => none
      | some p =>
        some { date := d, player := p, snippet := f.snippet,
               url := f.url.getD "",
               title :=
                 match f.url with
                 | some _ => if f.linkText = "" then pyTake f.snippet 140
                             else f.linkText
                 | none => pyTake f.snippet 140 }

/-- The `scrape_page` collection result of src/scrape_trade_rumors.py: the
rows of the page plus the reached-old flag (set when some fragment parsed to
a date before the cutoff; an empty page reports the flag as true, which stops
pagination). -/
def scrapePageRumors (cutoff : Int) (playersUpper : List String)
    (frags : List Frag) : List RumorRow × Bool :=
  if frags.isEmpty then ([], true)
  else
    (frags.filterMap (rowOfFrag cutoff playersUpper),
     frags.any fun f =>
       match f.date with
       | some d => decide (d < cutoff)
       | none => false)

/-- Dedup key of `scrape()`:
`df.drop_duplicates(subset=["date", "player", "url", "snippet"])`. -/
def scrapeKey (r : RumorRow) : Int × String × String × String :=
  (r.date, r.player, r.url, r.snippet)

/-- The dedup step of `scrape()` in src/scrape_trade_rumors.py. -/
def scrapeDedup (rows : List RumorRow) : List RumorRow :=
  dedupeBy scrapeKey rows

/-! ## Embedding of src/scrape_trade_rankings.py -/

/-- Rumor record built by `scrape_page` of src/scrape_trade_rankings.py
(the `team` metadata field is omitted, see the header note). -/
structure RankRumor where
  date : Int
  player : String
  text : String
  textHtml : String
  outlet : String
  sourceUrl : String
deriving DecidableEq

/-- One element of the interleaved `div.date-holder` / `div.rumor` stream of
a HoopsHype page; a date holder carries its parse result. -/
inductive PageElem where
  | dateHolder (parsed : Option Int)
  | rumor (tags : List String) (text textHtml outlet sourceUrl : String)
deriving DecidableEq

/-- The `is_player_tag` check: lowercase, strip, exact roster membership. -/
def isPlayerTag (tagText : String) (knownPlayers : List String) : Bool :=
  decide (pyStrip (pyLower tagText) ∈ knownPlayers)

/-- One step of the element loop of `scrape_page`
(src/scrape_trade_rankings.py): a date holder replaces the running date with
its parse result (and updates the oldest date only when parsing succeeded); a
rumor under no running date is skipped; otherwise each known player tag
yields one record dated with the running date. State is
`(rows, currentDate, oldestDate)`. -/
def pageElemStep (knownPlayers : List String)
    (st : List RankRumor × Option Int × Option Int) (e : PageElem) :
    List RankRumor × Option Int × Option Int :=
  match e with
  | .dateHolder parsed =>
    match parsed with
    | some d => (st.1, some d, some d)
    | none => (st.1, none, st.2.2)
  | .rumor tags text textHtml outlet sourceUrl =>
    match st.2.1 with
    | none => st
    | some d =>
      (st.1 ++ (tags.filter (fun t => isPlayerTag t knownPlayers)).map
        (fun t => { date := d, player := t, text := text, textHtml := textHtml,
                    outlet := outlet, sourceUrl := sourceUrl }),
       some d, st.2.2)

/-- The element loop of `scrape_page` in src/scrape_trade_rankings.py:
returns the records of the page and the oldest successfully parsed date. -/
def processPageElems (knownPlayers : List String) (elems : List PageElem) :
    List RankRumor × Option Int :=
  let st := elems.foldl (pageElemStep knownPlayers) ([], none, none)
  (st.1, st.2.2)

/-- Result of one page fetch as consumed by `scrape_all_rumors`: the records,
the next-page flag, and the oldest parsed date. -/
structure PageResult where
  rumors : List RankRumor
  hasMore : Bool
  oldest : Option Int
deriving DecidableEq

/-- The `MAX_PAGES` ceiling of src/scrape_trade_rankings.py. -/
def MAX_PAGES : Nat := 100

/-- The page loop of `scrape_all_rumors`: append the whole page, then stop
when the oldest parsed date fell before the cutoff, or when there is no next
page, or when the page ceiling is exhausted. -/
def collectPagesGo (cutoff : Int) : Nat → List PageResult → List RankRumor
  | 0, _ => []
  | _, [] => []
  | fuel + 1, p :: rest =>
    p.rumors ++
      (if (match p.oldest with
           | some d => decide (d < cutoff)
           | none => false) then []
       else if !p.hasMore then []
       else collectPagesGo cutoff fuel rest)

/-- All records accumulated by the `scrape_all_rumors` page loop. -/
def collectPages (cutoff : Int) (pages : List PageResult) : List RankRumor :=
  collectPagesGo cutoff MAX_PAGES pages

/-- The full `scrape_all_rumors` of src/scrape_trade_rankings.py: the page
loop followed by its final window filter
`[r for r in all_rumors if r["date"] >= cutoff_date.isoformat()]`. -/
def scrapeAllRumors (cutoff : Int) (pages : List PageResult) :
    List RankRumor :=
  (collectPages cutoff pages).filter (fun r => decide (cutoff ≤ r.date))

/-! ## Embedding of `calculate_rankings` (src/scrape_trade_rankings.py)

`player_data` is a `defaultdict` keyed by player, modelled as an association
list in insertion order; `today = datetime.now().date()` is the explicit
`today` parameter; date comparisons on ISO strings agree with `Int` order;
the `team` and `daily_counts` bookkeeping is omitted (metadata only). -/

/-- Stored per-player rumor dict (`player_data[p]["rumors"]` entries). -/
structure StoredRumor where
  date : Int
  text : String
  textHtml : String
  outlet : String
  sourceUrl : String
deriving DecidableEq

/-- Per-player accumulator of `calculate_rankings`. -/
structure PData where
  mentionsWeek1 : Nat
  mentionsWeek2 : Nat
  mentionsWeeks34 : Nat
  totalMentions : Nat
  firstMention : Option Int
  lastMention : Option Int
  rumors : List StoredRumor
deriving DecidableEq

/-- The fresh `defaultdict` entry. -/
def emptyPData : PData :=
  { mentionsWeek1 := 0, mentionsWeek2 := 0, mentionsWeeks34 := 0,
    totalMentions := 0, firstMention := none, lastMention := none,
    rumors := [] }

/-- The per-player duplicate-avoidance key
`(rumor["date"], rumor["text"][:100])`. -/
def storedKey (s : StoredRumor) : Int × String :=
  (s.date, pyTake s.text 100)

/-- The stored projection of a rumor record. -/
def toStored (r : RankRumor) : StoredRumor :=
  { date := r.date, text := r.text, textHtml := r.textHtml,
    outlet := r.outlet, sourceUrl := r.sourceUrl }

/-- The body of the `for rumor in rumors` loop of `calculate_rankings`,
applied to one player entry: bucket by `days_ago = today - date`
(`<= 7` week 1, `elif <= 14` week 2, else weeks 3-4), bump the total, update
first/last mention, and append the stored rumor unless its
`(date, text[:100])` key was already stored. -/
def updOne (today : Int) (r : RankRumor) (d : PData) : PData :=
  let da := today - r.date
  let d1 :=
    if da ≤ 7 then { d with mentionsWeek1 := d.mentionsWeek1 + 1 }
    else if da ≤ 14 then { d with mentionsWeek2 := d.mentionsWeek2 + 1 }
    else { d with mentionsWeeks34 := d.mentionsWeeks34 + 1 }
  let d2 := { d1 with totalMentions := d1.totalMentions + 1 }
  let d3 :=
    { d2 with
      firstMention :=
        match d2.firstMention with
        | none => some r.date
        | some f => if r.date < f then some r.date else some f,
      lastMention :=
        match d2.lastMention with
        | none => some r.date
        | some f => if f < r.date then some r.date else some f }
  if storedKey (toStored r) ∈ d3.rumors.map storedKey then d3
  else { d3 with rumors := d3.rumors ++ [toStored r] }

/-- Update the association-list entry of `p` in place, or create it at the
end (a Python `defaultdict` creates the entry on first access, and dict
iteration is in insertion order). -/
def alUpdate (p : String) (f : PData → PData) :
    List (String × PData) → List (String × PData)
  | [] => [(p, f emptyPData)]
  | (q, d) :: rest =>
    if q = p then (q, f d) :: rest else (q, d) :: alUpdate p f rest

/-- One rumor of the `calculate_rankings` loop. -/
def stepPD (today : Int) (m : List (String × PData)) (r : RankRumor) :
    List (String × PData) :=
  alUpdate r.player (updOne today r) m

/-- The fully accumulated `player_data` dict of `calculate_rankings`. -/
def playerData (today : Int) (rumors : List RankRumor) :
    List (String × PData) :=
  rumors.foldl (stepPD today) []

/-- Association-list lookup. -/
def alookup : List (String × PData) → String → Option PData
  | [], _ => none
  | (q, d) :: rest, p => if q = p then some d else alookup rest p

/-- Fold a list of rumors of one player into an accumulator entry. -/
def foldUpd (today : Int) (rs : List RankRumor) (d : PData) : PData :=
  rs.foldl (fun d r => updOne today r d) d

/-- One entry of the `rankings` list of `calculate_rankings` (before the rank
field is filled in). Weights: `1.0`, `0.5`, `0.25`; score rounded to two
decimals. -/
structure RankEntry where
  player : String
  score : ℚ
  mentionsWeek1 : Nat
  mentionsWeek2 : Nat
  mentionsWeeks34 : Nat
  totalMentions : Nat
  firstMention : Option Int
  lastMention : Option Int
  rank : Nat
deriving DecidableEq

/-- Build one ranking entry from a `player_data` item. -/
def toRankEntry (pd : String × PData) : RankEntry :=
  { player := pd.1,
    score := roundQ2 ((pd.2.mentionsWeek1 : ℚ) * 1
      + (pd.2.mentionsWeek2 : ℚ) * (1 / 2)
      + (pd.2.mentionsWeeks34 : ℚ) * (1 / 4)),
    mentionsWeek1 := pd.2.mentionsWeek1,
    mentionsWeek2 := pd.2.mentionsWeek2,
    mentionsWeeks34 := pd.2.mentionsWeeks34,
    totalMentions := pd.2.totalMentions,
    firstMention := pd.2.firstMention,
    lastMention := pd.2.lastMention,
    rank := 0 }

/-- The Python sort key
`rankings.sort(key=lambda x: (-x["score"], -x["total_mentions"], x["player"]))`. -/
def rankKey (e : RankEntry) : ℚ × Int × List Char :=
  (-e.score, -(e.totalMentions : Int), e.player.data)

/-- Ascending comparison of rank-sort keys. -/
def rankLE (a b : RankEntry) : Bool :=
  tripLE (rankKey a) (rankKey b)

/-- The `calculate_rankings` function of src/scrape_trade_rankings.py:
accumulate `player_data`, build the entries, sort by
(score desc, total mentions desc, player name asc), then assign
`rank = i` for `i = 1, 2, ...` down the sorted list. -/
def calculateRankings (today : Int) (rumors : List RankRumor) :
    List RankEntry :=
  let entries := (playerData today rumors).map toRankEntry
  let sorted := insSort rankLE entries
  sorted.enum.map (fun p => { p.2 with rank := p.1 + 1 })

/-! ## Embedding of src/streamlit_app.py -/

/-- The `NAME_FIXES` display-name table. -/
def nameFixes : List (String × String) :=
  [("Lebron James", "LeBron James"),
   ("Karl-anthony Towns", "Karl-Anthony Towns"),
   ("Lamelo Ball", "LaMelo Ball"),
   ("Demar Derozan", "DeMar DeRozan")]

/-- The `apply_name_fixes` function: strip, then look up the fix table. -/
def applyNameFixes (name : String) : String :=
  let t := pyStrip name
  match nameFixes.find? (fun kv => kv.1 = t) with
  | some kv => kv.2
  | none => t

/-- Row of the loaded and cleaned `trade_rumors.csv` as used by
`compute_player_scores`: normalized date, player, slug (the other columns
feed only the detail rendering). -/
structure SRow where
  date : Int
  player : String
  slug : String
deriving DecidableEq

/-- Maximum of the date column (`pd.to_datetime(df["date"]).max()`);
meaningful only for nonempty row lists. -/
def dmaxDate : List SRow → Int
  | [] => 0
  | r :: rs => rs.foldl (fun m x => max m x.date) r.date

/-- Minimum of the date column over a group. -/
def dminDate : List SRow → Int
  | [] => 0
  | r :: rs => rs.foldl (fun m x => min m x.date) r.date

/-- The `get_window_bounds` function of src/streamlit_app.py: the window end
is the dataset's own maximum date (today's date only for an empty frame) and
the window start is `end - (WINDOW_DAYS - 1) = end - 27`. -/
def getWindowBounds (today : Int) (rows : List SRow) : Int × Int :=
  let e := if rows.isEmpty then today else dmaxDate rows
  (e - 27, e)

/-- One row of the score table built by `compute_player_scores`. -/
structure ScoreEntry where
  player : String
  slug : String
  score : ℚ
  mentionsRecent : Nat
  mentionsMid : Nat
  mentionsOld : Nat
  firstMention : Int
  lastMention : Int
  mentionsTotal : Nat
deriving DecidableEq

/-- Group stats of the key `(player, slug)` over the window rows: the three
bucket masks are `days_ago <= 6`, `7 <= days_ago <= 13`, and
`14 <= days_ago < 28` with `days_ago = window_end - date`; score is the
weighted sum; first/last mention are the group's min/max date. -/
def entryForKey (we : Int) (win : List SRow) (k : String × String) :
    ScoreEntry :=
  let g := win.filter (fun r => decide (r.player = k.1) && decide (r.slug = k.2))
  let recent := (g.filter (fun r => decide (we - r.date ≤ 6))).length
  let mid := (g.filter (fun r =>
    decide (7 ≤ we - r.date) && decide (we - r.date ≤ 13))).length
  let old := (g.filter (fun r =>
    decide (14 ≤ we - r.date) && decide (we - r.date < 28))).length
  { player := k.1, slug := k.2,
    score := (recent : ℚ) * 1 + (mid : ℚ) * (1 / 2) + (old : ℚ) * (1 / 4),
    mentionsRecent := recent, mentionsMid := mid, mentionsOld := old,
    firstMention := dminDate g, lastMention := dmaxDate g,
    mentionsTotal := recent + mid + old }

/-- The pandas sort key
`sort_values(by=["score", "last_mention", "player"], ascending=[False, False, True])`. -/
def scoreKey (e : ScoreEntry) : ℚ × Int × List Char :=
  (-e.score, -e.lastMention, e.player.data)

/-- Ascending comparison of score-sort keys. -/
def scoreLE (a b : ScoreEntry) : Bool :=
  tripLE (scoreKey a) (scoreKey b)

/-- Core of `compute_player_scores` once the window bounds are fixed: empty
window gives the empty frame; otherwise group by the sorted unique
`(player, slug)` keys (pandas `groupby` sorts its keys), build the group
stats, sort, and apply the display-name fixes (the code renames after
sorting). -/
def scoreCore (we : Int) (win : List SRow) : List ScoreEntry :=
  if win.isEmpty then []
  else
    let keys := insSort pairLE (dedupeBy id (win.map (fun r => (r.player, r.slug))))
    let entries := keys.map (entryForKey we win)
    (insSort scoreLE entries).map
      (fun e => { e with player := applyNameFixes e.player })

/-- The `compute_player_scores` function of src/streamlit_app.py. -/
def computePlayerScores (today : Int) (rows : List SRow) : List ScoreEntry :=
  if rows.isEmpty then []
  else
    let b := getWindowBounds today rows
    scoreCore b.2
      (rows.filter (fun r => decide (b.1 ≤ r.date) && decide (r.date ≤ b.2)))

/-- Rank assignment of `show_rankings`: `rank = index + 1` down the score
table. -/
def showRankingsRanked (scores : List ScoreEntry) : List (Nat × ScoreEntry) :=
  scores.enum.map (fun p => (p.1 + 1, p.2))

/-! ## Embedding of src/fix_trade_rumors_players.py -/

/-- The placeholder player value. -/
def PLACEHOLDER : String := "PLAYER"

/-- The columns of a CSV row read by `infer_player_for_row`. -/
structure CsvRow where
  player : String
  title : String
  snippet : String
deriving DecidableEq

/-- Load the roster (`load_players` of src/fix_trade_rumors_players.py):
one name per line, skipping blanks and header lines starting with
"player" case-insensitively. -/
def loadPlayers (lines : List String) : List String :=
  lines.filterMap (fun line =>
    let name := pyStrip line
    if name = "" then none
    else if pyStartsWith (pyLower name) "player" then none
    else some name)

/-- Append a full name to the bucket of `last` (a Python `set.add`, modelled
as append-if-new in insertion order). -/
def addToBucket (last full : String) :
    List (String × List String) → List (String × List String)
  | [] => [(last, [full])]
  | (k, names) :: rest =>
    if k = last then
      (k, if full ∈ names then names else names ++ [full]) :: rest
    else (k, names) :: addToBucket last full rest

/-- The `build_last_name_index` function: map lowercased last name to the
full names carrying it (single-word names are skipped). -/
def buildLastNameIndex (names : List String) :
    List (String × List String) :=
  names.foldl (fun m full =>
    let parts := pySplitWs full
    if parts.length < 2 then m
    else addToBucket (pyLower ((parts.getLast?).getD "")) full m) []

/-- Python `max(names, key=len)` over a list known nonempty; empty input is
never reached and maps to the empty string. -/
def pyMaxByLenL (l : List String) : String :=
  match l with
  | [] => ""
  | m :: rest => pyMaxByLen m rest

/-- Word character of the regex `\b` boundary (`[A-Za-z0-9_]`; the roster
and rumor text this program matches are ASCII at the boundary positions). -/
def isWordChar (c : Char) : Bool :=
  c.isAlphanum || c = '_'

/-- Does the pattern occur at this position with `\b` boundaries on both
sides? `prev` is the character just before the position (`none` at the start
of the text). The patterns of this program begin and end with word
characters, for which `\b` means exactly that the neighbouring characters,
when present, are non-word. -/
def wbMatchAt (pat : List Char) (prev : Option Char) (s : List Char) : Bool :=
  pat.isPrefixOf s
    && (match prev with
        | none => true
        | some c => !isWordChar c)
    && (match (s.drop pat.length).head? with
        | none => true
        | some c => !isWordChar c)

/-- Scan all positions of the text for a `\b`-delimited occurrence. -/
def wbGo (pat : List Char) (prev : Option Char) : List Char → Bool
  | [] => wbMatchAt pat prev []
  | c :: rest => wbMatchAt pat prev (c :: rest) || wbGo pat (some c) rest

/-- Python `re.search(r"\b" + re.escape(pat) + r"\b", text) is not None`. -/
def wbContains (text pat : String) : Bool :=
  wbGo pat.data none text.data

/-- Union of the buckets of all index entries whose (not-too-short) last name
matches the text with word boundaries; Python uses a `set`, modelled as an
append-if-new list in index order. -/
def lastNameMatches (text : String)
    (lastToNames : List (String × List String)) : List String :=
  lastToNames.foldl (fun acc kv =>
    if kv.1.length < 4 then acc
    else if wbContains text kv.1 then
      kv.2.foldl (fun a n => if n ∈ a then a else a ++ [n]) acc
    else acc) []

/-- The `infer_player_for_row` function of src/fix_trade_rumors_players.py:
keep an already-resolved (stripped) player value; otherwise search
`title + " " + snippet` (lowercased) for word-boundary full-name matches
(unique match wins, several matches pick the longest); only when no full
name matches, fall back to the last-name index (unique candidate wins,
several pick the longest); otherwise keep the placeholder. -/
def inferPlayerForRow (row : CsvRow) (fullNames : List String)
    (lastToNames : List (String × List String)) : String :=
  let current := pyStrip row.player
  if current ≠ "" ∧ pyUpper current ≠ PLACEHOLDER then current
  else
    let text := pyLower (row.title ++ " " ++ row.snippet)
    let fullMatches := fullNames.filter (fun n => wbContains text (pyLower n))
    match fullMatches with
    | [m] => m
    | _ :: _ :: _ => pyMaxByLenL fullMatches
    | [] =>
      let lastMatches := lastNameMatches text lastToNames
      match lastMatches with
      | [m] => m
      | _ :: _ :: _ => pyMaxByLenL lastMatches
      | [] => PLACEHOLDER

/-- One row of the fixing pass of `main` in src/fix_trade_rumors_players.py:
apply `infer_player_for_row`, then replace a blank result with the
placeholder (the final `df.loc[...] = PLACEHOLDER` cleanup). -/
def fixRow (row : CsvRow) (fullNames : List String)
    (lastToNames : List (String × List String)) : CsvRow :=
  let v := inferPlayerForRow row fullNames lastToNames
  { row with player := if pyStrip v = "" then PLACEHOLDER else v }

/-! ## Window-bound lemmas (src/streamlit_app.py) -/

theorem foldlMax_init_le :
    ∀ (l : List SRow) (a : Int), a ≤ l.foldl (fun m x => max m x.date) a := by
  intro l
  induction l with
  | nil => intro a; exact le_refl a
  | cons y ys ih =>
    intro a
    exact le_trans (le_max_left a y.date) (ih (max a y.date))

theorem foldlMax_mem_le :
    ∀ (l : List SRow) (a : Int) (x : SRow), x ∈ l →
      x.date ≤ l.foldl (fun m x => max m x.date) a := by
  intro l
  induction l with
  | nil => intro a x hx; simp at hx
  | cons y ys ih =>
    intro a x hx
    rcases List.mem_cons.mp hx with h | h
    · subst h
      exact le_trans (le_max_right a x.date) (foldlMax_init_le ys (max a x.date))
    · exact ih (max a y.date) x h

theorem foldlMax_attained :
    ∀ (l : List SRow) (a : Int),
      l.foldl (fun m x => max m x.date) a = a ∨
      ∃ x ∈ l, l.foldl (fun m x => max m x.date) a = x.date := by
  intro l
  induction l with
  | nil => intro a; exact Or.inl rfl
  | cons y ys ih =>
    intro a
    rcases ih (max a y.date) with h | ⟨x, hx, he⟩
    · rcases max_choice a y.date with hm | hm
      · exact Or.inl (by rw [List.foldl_cons, h, hm])
      · exact Or.inr ⟨y, List.mem_cons_self _ _, by rw [List.foldl_cons, h, hm]⟩
    · exact Or.inr ⟨x, List.mem_cons_of_mem _ hx, by rw [List.foldl_cons, he]⟩

theorem dmaxDate_le (rows : List SRow) (r : SRow) (hr : r ∈ rows) :
    r.date ≤ dmaxDate rows := by
  cases rows with
  | nil => simp at hr
  | cons r0 rs =>
    rw [dmaxDate]
    rcases List.mem_cons.mp hr with h | h
    · subst h; exact foldlMax_init_le rs r.date
    · exact foldlMax_mem_le rs r0.date r h

theorem dmaxDate_mem (rows : List SRow) (hne : rows ≠ []) :
    ∃ r ∈ rows, r.date = dmaxDate rows := by
  cases rows with
  | nil => exact absurd rfl hne
  | cons r0 rs =>
    rw [dmaxDate]
    rcases foldlMax_attained rs r0.date with h | ⟨x, hx, he⟩
    · exact ⟨r0, List.mem_cons_self _ _, h.symm⟩
    · exact ⟨x, List.mem_cons_of_mem _ hx, he.symm⟩

theorem getWindowBounds_of_ne_nil (today : Int) (rows : List SRow)
    (hne : rows ≠ []) :
    getWindowBounds today rows = (dmaxDate rows - 27, dmaxDate rows) := by
  have he : rows.isEmpty = false := by
    cases rows with
    | nil => exact absurd rfl hne
    | cons r rs => rfl
  simp [getWindowBounds, he]

/-! ## Claim C1 -/

/-- Claim C1, as stated, is false for the scraper's scoring path:
`calculate_rankings` measures recency against the wall-clock date
(`today = datetime.now().date()`), not the maximum date of the record set, so
the same single-record set scores `1` when evaluated 5 days after the record
and `1/4` when evaluated 15 days after it. -/
theorem c1_counterexample :
    (calculateRankings 100 [⟨95, "A", "t", "h", "o", "u"⟩]).map (·.score) = [1]
      ∧ (calculateRankings 110 [⟨95, "A", "t", "h", "o", "u"⟩]).map (·.score)
          = [1 / 4]
      ∧ (1 : ℚ) ≠ 1 / 4 := by
  refine ⟨?_, ?_, by norm_num⟩ <;>
  norm_num [calculateRankings, playerData, stepPD, alUpdate, updOne, emptyPData,
    toRankEntry, insSort, insertLe, List.enum, roundQ2, storedKey, toStored]

/-- Claim C1 (amended): the streamlit scoring engine
(`compute_player_scores`) never reads the wall-clock date — its output is the
same function of the record set for every evaluation date — and for a
non-empty record set its window end (`get_window_bounds`) is exactly the
maximum date present in the record set; the scraper's `calculate_rankings`,
by contrast, buckets against the wall-clock date (see the counterexample). -/
theorem c1_amended_thm :
    (∀ (t₁ t₂ : Int) (rows : List SRow),
      computePlayerScores t₁ rows = computePlayerScores t₂ rows)
    ∧ (∀ (t : Int) (rows : List SRow), rows ≠ [] →
        (∀ r ∈ rows, r.date ≤ (getWindowBounds t rows).2)
          ∧ ∃ r ∈ rows, r.date = (getWindowBounds t rows).2) := by
  constructor
  · intro t₁ t₂ rows
    by_cases he : rows.isEmpty
    · simp [computePlayerScores, he]
    · have hne : rows ≠ [] := by
        cases rows with
        | nil => simp at he
        | cons r rs => simp
      simp only [computePlayerScores, he, Bool.false_eq_true, if_false,
        getWindowBounds_of_ne_nil _ _ hne]
  · intro t rows hne
    rw [getWindowBounds_of_ne_nil t rows hne]
    exact ⟨fun r hr => dmaxDate_le rows r hr, dmaxDate_mem rows hne⟩

/-- Witness for C1 at a concrete record set. -/
theorem c1_witness :
    computePlayerScores 5 [⟨3, "A", "a"⟩, ⟨1, "B", "b"⟩]
        = computePlayerScores 9 [⟨3, "A", "a"⟩, ⟨1, "B", "b"⟩]
      ∧ ((∀ r ∈ ([⟨3, "A", "a"⟩, ⟨1, "B", "b"⟩] : List SRow),
            r.date ≤ (getWindowBounds 5 [⟨3, "A", "a"⟩, ⟨1, "B", "b"⟩]).2)
          ∧ ∃ r ∈ ([⟨3, "A", "a"⟩, ⟨1, "B", "b"⟩] : List SRow),
              r.date = (getWindowBounds 5 [⟨3, "A", "a"⟩, ⟨1, "B", "b"⟩]).2) :=
  ⟨c1_amended_thm.1 5 9 [⟨3, "A", "a"⟩, ⟨1, "B", "b"⟩],
   c1_amended_thm.2 5 [⟨3, "A", "a"⟩, ⟨1, "B", "b"⟩] (by decide)⟩

/-! ## Characterization of the `calculate_rankings` accumulator -/

theorem alookup_alUpdate_self (p : String) (f : PData → PData) :
    ∀ m : List (String × PData),
      alookup (alUpdate p f m) p = some (f ((alookup m p).getD emptyPData)) := by
  intro m
  induction m with
  | nil => simp [alUpdate, alookup]
  | cons qd rest ih =>
    obtain ⟨q, d⟩ := qd
    rw [alUpdate]
    by_cases hq : q = p
    · subst hq
      simp [alookup]
    · rw [if_neg hq]
      rw [alookup, if_neg hq, alookup, if_neg hq]
      exact ih

theorem alookup_alUpdate_ne (p : String) (f : PData → PData) (q : String)
    (hqp : q ≠ p) : ∀ m : List (String × PData),
      alookup (alUpdate p f m) q = alookup m q := by
  intro m
  induction m with
  | nil => simp [alUpdate, alookup, Ne.symm hqp]
  | cons kd rest ih =>
    obtain ⟨k, d⟩ := kd
    rw [alUpdate]
    by_cases hk : k = p
    · rw [if_pos hk]
      simp only [alookup]
      rw [if_neg (hk ▸ Ne.symm hqp), if_neg (hk ▸ Ne.symm hqp)]
    · rw [if_neg hk]
      simp only [alookup]
      by_cases hkq : k = q
      · rw [if_pos hkq, if_pos hkq]
      · rw [if_neg hkq, if_neg hkq]
        exact ih

theorem alookup_playerDataGo (t : Int) :
    ∀ (rums : List RankRumor) (m : List (String × PData)) (p : String),
      alookup (rums.foldl (stepPD t) m) p =
        match alookup m p with
        | some d =>
          some (foldUpd t (rums.filter (fun r => decide (r.player = p))) d)
        | none =>
          if (rums.filter (fun r => decide (r.player = p))).isEmpty then none
          else some (foldUpd t
            (rums.filter (fun r => decide (r.player = p))) emptyPData) := by
  intro rums
  induction rums with
  | nil =>
    intro m p
    cases halm : alookup m p <;> simp [foldUpd, halm]
  | cons r rest ih =>
    intro m p
    rw [List.foldl_cons]
    rw [ih (stepPD t m r) p]
    by_cases hp : r.player = p
    · have hstep : alookup (stepPD t m r) p
          = some (updOne t r ((alookup m p).getD emptyPData)) := by
        rw [stepPD, hp]
        exact alookup_alUpdate_self p (updOne t r) m
      rw [hstep]
      rw [List.filter_cons_of_pos (by simpa using hp)]
      cases halm : alookup m p with
      | some d => simp [foldUpd, halm]
      | none => simp [foldUpd, halm]
    · have hstep : alookup (stepPD t m r) p = alookup m p := by
        rw [stepPD]
        exact alookup_alUpdate_ne r.player (updOne t r) p (Ne.symm hp) m
      rw [hstep]
      rw [List.filter_cons_of_neg (by simpa using hp)]

theorem alookup_playerData (t : Int) (rums : List RankRumor) (p : String) :
    alookup (playerData t rums) p =
      if (rums.filter (fun r => decide (r.player = p))).isEmpty then none
      else some (foldUpd t
        (rums.filter (fun r => decide (r.player = p))) emptyPData) := by
  rw [playerData, alookup_playerDataGo t rums [] p]
  rfl

theorem alUpdate_keys (p : String) (f : PData → PData) :
    ∀ m : List (String × PData),
      (alUpdate p f m).map Prod.fst =
        if p ∈ m.map Prod.fst then m.map Prod.fst
        else m.map Prod.fst ++ [p] := by
  intro m
  induction m with
  | nil => simp [alUpdate]
  | cons qd rest ih =>
    obtain ⟨q, d⟩ := qd
    rw [alUpdate]
    by_cases hq : q = p
    · rw [if_pos hq, List.map_cons, List.map_cons]
      rw [if_pos (by rw [← hq]; exact List.mem_cons_self _ _)]
    · rw [if_neg hq, List.map_cons, List.map_cons, ih]
      by_cases hmem : p ∈ rest.map Prod.fst
      · rw [if_pos hmem, if_pos (List.mem_cons_of_mem _ hmem)]
      · rw [if_neg hmem, if_neg (by
          rw [List.mem_cons]
          rintro (h | h)
          · exact hq h.symm
          · exact hmem h)]
        rfl

theorem playerDataGo_keys_nodup (t : Int) :
    ∀ (rums : List RankRumor) (m : List (String × PData)),
      (m.map Prod.fst).Nodup → ((rums.foldl (stepPD t) m).map Prod.fst).Nodup := by
  intro rums
  induction rums with
  | nil => intro m h; exact h
  | cons r rest ih =>
    intro m h
    rw [List.foldl_cons]
    refine ih (stepPD t m r) ?_
    rw [stepPD, alUpdate_keys]
    by_cases hmem : r.player ∈ m.map Prod.fst
    · rw [if_pos hmem]; exact h
    · rw [if_neg hmem]
      rw [List.nodup_append]
      exact ⟨h, List.nodup_singleton _, by
        intro a ha hb
        rw [List.mem_singleton] at hb
        subst hb
        exact hmem ha⟩

theorem alookup_eq_of_mem :
    ∀ (m : List (String × PData)), (m.map Prod.fst).Nodup →
      ∀ (p : String) (d : PData), (p, d) ∈ m → alookup m p = some d := by
  intro m
  induction m with
  | nil => intro _ p d h; simp at h
  | cons qd rest ih =>
    intro hnd p d h
    obtain ⟨q, d0⟩ := qd
    rw [List.map_cons, List.nodup_cons] at hnd
    rcases List.mem_cons.mp h with he | he
    · cases he
      rw [alookup, if_pos rfl]
    · have hq : q ≠ p := by
        intro hqe
        subst hqe
        exact hnd.1 (List.mem_map.mpr ⟨(q, d), he, rfl⟩)
      rw [alookup, if_neg hq]
      exact ih hnd.2 p d he

theorem mem_playerData_alookup (t : Int) (rums : List RankRumor)
    (p : String) (d : PData) (h : (p, d) ∈ playerData t rums) :
    alookup (playerData t rums) p = some d :=
  alookup_eq_of_mem _ (playerDataGo_keys_nodup t rums [] (by simp)) p d h

theorem updOne_week1 (t : Int) (r : RankRumor) (d : PData) :
    (updOne t r d).mentionsWeek1 =
      d.mentionsWeek1 + (if t - r.date ≤ 7 then 1 else 0) := by
  simp only [updOne]
  split_ifs <;> rfl

theorem updOne_week2 (t : Int) (r : RankRumor) (d : PData) :
    (updOne t r d).mentionsWeek2 =
      d.mentionsWeek2 +
        (if ¬ t - r.date ≤ 7 ∧ t - r.date ≤ 14 then 1 else 0) := by
  simp only [updOne]
  split_ifs <;> first | rfl | omega

theorem updOne_weeks34 (t : Int) (r : RankRumor) (d : PData) :
    (updOne t r d).mentionsWeeks34 =
      d.mentionsWeeks34 +
        (if ¬ t - r.date ≤ 7 ∧ ¬ t - r.date ≤ 14 then 1 else 0) := by
  simp only [updOne]
  split_ifs <;> first | rfl | omega

theorem updOne_total (t : Int) (r : RankRumor) (d : PData) :
    (updOne t r d).totalMentions = d.totalMentions + 1 := by
  simp only [updOne]
  split_ifs <;> rfl

theorem updOne_rumors (t : Int) (r : RankRumor) (d : PData) :
    (updOne t r d).rumors =
      if storedKey (toStored r) ∈ d.rumors.map storedKey then d.rumors
      else d.rumors ++ [toStored r] := by
  simp only [updOne]
  split_ifs <;> rfl

theorem foldUpd_week1 (t : Int) :
    ∀ (rs : List RankRumor) (d : PData),
      (foldUpd t rs d).mentionsWeek1 =
        d.mentionsWeek1 +
          (rs.filter (fun r => decide (t - r.date ≤ 7))).length := by
  intro rs
  induction rs with
  | nil => intro d; simp [foldUpd]
  | cons r rest ih =>
    intro d
    rw [foldUpd, List.foldl_cons]
    rw [show rest.foldl (fun d r => updOne t r d) (updOne t r d)
        = foldUpd t rest (updOne t r d) from rfl]
    rw [ih, updOne_week1]
    by_cases h : t - r.date ≤ 7
    · rw [List.filter_cons_of_pos (by simpa using h), if_pos h]
      simp [Nat.add_assoc, Nat.add_comm]
    · rw [List.filter_cons_of_neg (by simpa using h), if_neg h]
      omega

theorem foldUpd_week2 (t : Int) :
    ∀ (rs : List RankRumor) (d : PData),
      (foldUpd t rs d).mentionsWeek2 =
        d.mentionsWeek2 +
          (rs.filter (fun r =>
            !decide (t - r.date ≤ 7) && decide (t - r.date ≤ 14))).length := by
  intro rs
  induction rs with
  | nil => intro d; simp [foldUpd]
  | cons r rest ih =>
    intro d
    rw [foldUpd, List.foldl_cons]
    rw [show rest.foldl (fun d r => updOne t r d) (updOne t r d)
        = foldUpd t rest (updOne t r d) from rfl]
    rw [ih, updOne_week2]
    by_cases h : ¬ t - r.date ≤ 7 ∧ t - r.date ≤ 14
    · rw [List.filter_cons_of_pos (by
        simp only [Bool.and_eq_true, Bool.not_eq_eq_eq_not, Bool.not_true,
          decide_eq_false_iff_not, decide_eq_true_eq]
        exact h), if_pos h]
      simp [Nat.add_assoc, Nat.add_comm]
    · rw [List.filter_cons_of_neg (by
        simp only [Bool.and_eq_true, Bool.not_eq_eq_eq_not, Bool.not_true,
          decide_eq_false_iff_not, decide_eq_true_eq]
        exact h), if_neg h]
      omega

theorem foldUpd_weeks34 (t : Int) :
    ∀ (rs : List RankRumor) (d : PData),
      (foldUpd t rs d).mentionsWeeks34 =
        d.mentionsWeeks34 +
          (rs.filter (fun r =>
            !decide (t - r.date ≤ 7) && !decide (t - r.date ≤ 14))).length := by
  intro rs
  induction rs with
  | nil => intro d; simp [foldUpd]
  | cons r rest ih =>
    intro d
    rw [foldUpd, List.foldl_cons]
    rw [show rest.foldl (fun d r => updOne t r d) (updOne t r d)
        = foldUpd t rest (updOne t r d) from rfl]
    rw [ih, updOne_weeks34]
    by_cases h : ¬ t - r.date ≤ 7 ∧ ¬ t - r.date ≤ 14
    · rw [List.filter_cons_of_pos (by
        simp only [Bool.and_eq_true, Bool.not_eq_eq_eq_not, Bool.not_true,
          decide_eq_false_iff_not]
        exact h), if_pos h]
      simp [Nat.add_assoc, Nat.add_comm]
    · rw [List.filter_cons_of_neg (by
        simp only [Bool.and_eq_true, Bool.not_eq_eq_eq_not, Bool.not_true,
          decide_eq_false_iff_not]
        exact h), if_neg h]
      omega

theorem foldUpd_total (t : Int) :
    ∀ (rs : List RankRumor) (d : PData),
      (foldUpd t rs d).totalMentions = d.totalMentions + rs.length := by
  intro rs
  induction rs with
  | nil => intro d; simp [foldUpd]
  | cons r rest ih =>
    intro d
    rw [foldUpd, List.foldl_cons]
    rw [show rest.foldl (fun d r => updOne t r d) (updOne t r d)
        = foldUpd t rest (updOne t r d) from rfl]
    rw [ih, updOne_total, List.length_cons]
    omega

theorem foldUpd_rumors_pairwise (t : Int) :
    ∀ (rs : List RankRumor) (d : PData),
      d.rumors.Pairwise (fun a b => storedKey a ≠ storedKey b) →
      (foldUpd t rs d).rumors.Pairwise (fun a b => storedKey a ≠ storedKey b) := by
  intro rs
  induction rs with
  | nil => intro d h; exact h
  | cons r rest ih =>
    intro d h
    rw [foldUpd, List.foldl_cons]
    rw [show rest.foldl (fun d r => updOne t r d) (updOne t r d)
        = foldUpd t rest (updOne t r d) from rfl]
    refine ih (updOne t r d) ?_
    rw [updOne_rumors]
    by_cases hmem : storedKey (toStored r) ∈ d.rumors.map storedKey
    · rw [if_pos hmem]; exact h
    · rw [if_neg hmem]
      rw [List.pairwise_append]
      refine ⟨h, List.pairwise_singleton _ _, ?_⟩
      intro a ha b hb
      rw [List.mem_singleton] at hb
      subst hb
      intro hk
      exact hmem (List.mem_map.mpr ⟨a, ha, hk⟩)

theorem filter_and_comm {α : Type} (l : List α) (p q : α → Bool) :
    l.filter (fun a => p a && q a) = l.filter (fun a => q a && p a) := by
  apply List.filter_congr
  intro a _
  rw [Bool.and_comm]

theorem mem_calculateRankings_decomp (t : Int) (rums : List RankRumor)
    (e : RankEntry) (he : e ∈ calculateRankings t rums) :
    ∃ d : PData, alookup (playerData t rums) e.player = some d
      ∧ e.mentionsWeek1 = d.mentionsWeek1
      ∧ e.mentionsWeek2 = d.mentionsWeek2
      ∧ e.mentionsWeeks34 = d.mentionsWeeks34
      ∧ e.totalMentions = d.totalMentions
      ∧ e.score = roundQ2 ((d.mentionsWeek1 : ℚ) * 1
          + (d.mentionsWeek2 : ℚ) * (1 / 2)
          + (d.mentionsWeeks34 : ℚ) * (1 / 4)) := by
  rw [calculateRankings] at he
  rcases List.mem_map.mp he with ⟨pr, hpr, rfl⟩
  have hsnd : pr.2 ∈ insSort rankLE ((playerData t rums).map toRankEntry) := by
    have hm := List.mem_map_of_mem Prod.snd hpr
    rwa [List.enum_map_snd] at hm
  rw [mem_insSort] at hsnd
  rcases List.mem_map.mp hsnd with ⟨pd, hpd, hpe⟩
  obtain ⟨p, d⟩ := pd
  refine ⟨d, ?_, ?_, ?_, ?_, ?_, ?_⟩ <;>
    rw [← hpe] <;>
    first
      | exact mem_playerData_alookup t rums p d hpd
      | rfl

theorem alookup_playerData_foldUpd (t : Int) (rums : List RankRumor)
    (p : String) (d : PData) (h : alookup (playerData t rums) p = some d) :
    d = foldUpd t (rums.filter (fun r => decide (r.player = p))) emptyPData := by
  rw [alookup_playerData] at h
  by_cases hemp : (rums.filter (fun r => decide (r.player = p))).isEmpty
  · rw [if_pos hemp] at h
    exact absurd h (by simp)
  · rw [if_neg hemp] at h
    exact (Option.some.injEq _ _ ▸ h).symm

theorem calculateRankings_bucket_counts (t : Int) (rums : List RankRumor) :
    ∀ e ∈ calculateRankings t rums,
      e.mentionsWeek1 = (rums.filter (fun r =>
          decide (r.player = e.player) && decide (t - r.date ≤ 7))).length
      ∧ e.mentionsWeek2 = (rums.filter (fun r =>
          decide (r.player = e.player)
            && (!decide (t - r.date ≤ 7) && decide (t - r.date ≤ 14)))).length
      ∧ e.mentionsWeeks34 = (rums.filter (fun r =>
          decide (r.player = e.player)
            && (!decide (t - r.date ≤ 7) && !decide (t - r.date ≤ 14)))).length
      ∧ e.totalMentions = (rums.filter (fun r =>
          decide (r.player = e.player))).length
      ∧ e.score = roundQ2 ((e.mentionsWeek1 : ℚ) * 1
          + (e.mentionsWeek2 : ℚ) * (1 / 2)
          + (e.mentionsWeeks34 : ℚ) * (1 / 4)) := by
  intro e he
  obtain ⟨d, halk, h1, h2, h3, h4, h5⟩ :=
    mem_calculateRankings_decomp t rums e he
  have hd := alookup_playerData_foldUpd t rums e.player d halk
  refine ⟨?_, ?_, ?_, ?_, ?_⟩
  · rw [h1, hd, foldUpd_week1]
    rw [show emptyPData.mentionsWeek1 = 0 from rfl, Nat.zero_add]
    rw [List.filter_filter]
    rw [filter_and_comm]
  · rw [h2, hd, foldUpd_week2]
    rw [show emptyPData.mentionsWeek2 = 0 from rfl, Nat.zero_add]
    rw [List.filter_filter]
    rw [filter_and_comm]
  · rw [h3, hd, foldUpd_weeks34]
    rw [show emptyPData.mentionsWeeks34 = 0 from rfl, Nat.zero_add]
    rw [List.filter_filter]
    rw [filter_and_comm]
  · rw [h4, hd, foldUpd_total]
    rw [show emptyPData.totalMentions = 0 from rfl, Nat.zero_add]
  · rw [h5, h1, h2, h3]

theorem mem_scoreCore_decomp (we : Int) (win : List SRow) (e : ScoreEntry)
    (he : e ∈ scoreCore we win) :
    ∃ k : String × String,
      e = { entryForKey we win k with
            player := applyNameFixes (entryForKey we win k).player } := by
  rw [scoreCore] at he
  by_cases hw : win.isEmpty = true
  · rw [if_pos hw] at he
    simp at he
  · rw [if_neg hw] at he
    rcases List.mem_map.mp he with ⟨x, hx, rfl⟩
    rw [mem_insSort] at hx
    rcases List.mem_map.mp hx with ⟨k, hk, rfl⟩
    exact ⟨k, rfl⟩

theorem entryForKey_recent (we : Int) (win : List SRow) (k : String × String) :
    (entryForKey we win k).mentionsRecent
      = (win.filter (fun r =>
          (decide (r.player = k.1) && decide (r.slug = k.2))
            && decide (we - r.date ≤ 6))).length := by
  show ((win.filter (fun r => decide (r.player = k.1) && decide (r.slug = k.2))).filter
    (fun r => decide (we - r.date ≤ 6))).length = _
  rw [List.filter_filter, filter_and_comm]

theorem entryForKey_mid (we : Int) (win : List SRow) (k : String × String) :
    (entryForKey we win k).mentionsMid
      = (win.filter (fun r =>
          (decide (r.player = k.1) && decide (r.slug = k.2))
            && (decide (7 ≤ we - r.date) && decide (we - r.date ≤ 13)))).length := by
  show ((win.filter (fun r => decide (r.player = k.1) && decide (r.slug = k.2))).filter
    (fun r => decide (7 ≤ we - r.date) && decide (we - r.date ≤ 13))).length = _
  rw [List.filter_filter, filter_and_comm]

theorem entryForKey_old (we : Int) (win : List SRow) (k : String × String) :
    (entryForKey we win k).mentionsOld
      = (win.filter (fun r =>
          (decide (r.player = k.1) && decide (r.slug = k.2))
            && (decide (14 ≤ we - r.date) && decide (we - r.date ≤ 27)))).length := by
  show ((win.filter (fun r => decide (r.player = k.1) && decide (r.slug = k.2))).filter
    (fun r => decide (14 ≤ we - r.date) && decide (we - r.date < 28))).length = _
  rw [List.filter_congr (l := win.filter
      (fun r => decide (r.player = k.1) && decide (r.slug = k.2)))
    (fun r _ => show (decide (14 ≤ we - r.date) && decide (we - r.date < 28))
        = (decide (14 ≤ we - r.date) && decide (we - r.date ≤ 27)) by
      rw [decide_eq_decide.mpr (show we - r.date < 28 ↔ we - r.date ≤ 27 by omega)])]
  rw [List.filter_filter, filter_and_comm]

theorem scoreCore_bucket_counts (we : Int) (win : List SRow)
    (hwin : ∀ r ∈ win, r.date ≤ we) :
    ∀ e ∈ scoreCore we win, ∃ p s : String,
      e.player = applyNameFixes p ∧ e.slug = s
      ∧ e.mentionsRecent = (win.filter (fun r =>
          (decide (r.player = p) && decide (r.slug = s))
            && (decide (0 ≤ we - r.date) && decide (we - r.date ≤ 6)))).length
      ∧ e.mentionsMid = (win.filter (fun r =>
          (decide (r.player = p) && decide (r.slug = s))
            && (decide (7 ≤ we - r.date) && decide (we - r.date ≤ 13)))).length
      ∧ e.mentionsOld = (win.filter (fun r =>
          (decide (r.player = p) && decide (r.slug = s))
            && (decide (14 ≤ we - r.date) && decide (we - r.date ≤ 27)))).length
      ∧ e.score = (e.mentionsRecent : ℚ) * 1 + (e.mentionsMid : ℚ) * (1 / 2)
          + (e.mentionsOld : ℚ) * (1 / 4)
      ∧ e.mentionsTotal = e.mentionsRecent + e.mentionsMid + e.mentionsOld := by
  intro e he
  obtain ⟨k, rfl⟩ := mem_scoreCore_decomp we win e he
  refine ⟨k.1, k.2, rfl, rfl, ?_, ?_, ?_, rfl, rfl⟩
  · show (entryForKey we win k).mentionsRecent = _
    rw [entryForKey_recent]
    apply congrArg List.length
    apply List.filter_congr
    intro r hr
    have hle : (0 : Int) ≤ we - r.date := by
      have := hwin r hr
      omega
    simp [hle]
  · exact entryForKey_mid we win k
  · exact entryForKey_old we win k

/-! ## Claim C2 -/

/-- Claim C2, as stated, is false for the scraper's scoring path: in
`calculate_rankings` a record with `daysAgo = 7` (inside the window) is
counted in the recent bucket with weight `1.0` (`days_ago <= 7`), while the
claim puts `daysAgo = 7` in the mid bucket with weight `0.5`. -/
theorem c2_counterexample :
    (calculateRankings 7 [⟨0, "A", "t", "h", "o", "u"⟩]).map
        (fun e => (e.mentionsWeek1, e.mentionsWeek2, e.score)) = [(1, 0, 1)]
      ∧ (1 : ℚ) ≠ 1 / 2 := by
  refine ⟨?_, by norm_num⟩
  norm_num [calculateRankings, playerData, stepPD, alUpdate, updOne, emptyPData,
    toRankEntry, insSort, insertLe, List.enum, roundQ2, storedKey, toStored]

/-- Claim C2 (amended): the streamlit engine assigns exactly the claimed
buckets — over the window rows, a record counts in the recent bucket iff
`daysAgo ∈ [0, 6]`, mid iff `daysAgo ∈ [7, 13]`, old iff `daysAgo ∈ [14, 27]`
(relative to the window end), and a player's score is
`1.0 * recent + 0.5 * mid + 0.25 * old`; the scraper's `calculate_rankings`
instead uses `daysAgo ≤ 7` for weight `1.0`, `daysAgo ∈ [8, 14]` for `0.5`,
and `daysAgo ≥ 15` for `0.25`, with no upper window bound. -/
theorem c2_amended_thm :
    (∀ (t : Int) (rums : List RankRumor), ∀ e ∈ calculateRankings t rums,
      e.mentionsWeek1 = (rums.filter (fun r =>
          decide (r.player = e.player) && decide (t - r.date ≤ 7))).length
      ∧ e.mentionsWeek2 = (rums.filter (fun r =>
          decide (r.player = e.player)
            && (!decide (t - r.date ≤ 7) && decide (t - r.date ≤ 14)))).length
      ∧ e.mentionsWeeks34 = (rums.filter (fun r =>
          decide (r.player = e.player)
            && (!decide (t - r.date ≤ 7) && !decide (t - r.date ≤ 14)))).length
      ∧ e.totalMentions = (rums.filter (fun r =>
          decide (r.player = e.player))).length
      ∧ e.score = roundQ2 ((e.mentionsWeek1 : ℚ) * 1
          + (e.mentionsWeek2 : ℚ) * (1 / 2)
          + (e.mentionsWeeks34 : ℚ) * (1 / 4)))
    ∧ (∀ (t : Int) (rows : List SRow), ∀ e ∈ computePlayerScores t rows,
        ∃ p s : String,
          e.player = applyNameFixes p ∧ e.slug = s
          ∧ e.mentionsRecent = ((rows.filter (fun r =>
              decide ((getWindowBounds t rows).1 ≤ r.date)
                && decide (r.date ≤ (getWindowBounds t rows).2))).filter (fun r =>
              (decide (r.player = p) && decide (r.slug = s))
                && (decide (0 ≤ (getWindowBounds t rows).2 - r.date)
                  && decide ((getWindowBounds t rows).2 - r.date ≤ 6)))).length
          ∧ e.mentionsMid = ((rows.filter (fun r =>
              decide ((getWindowBounds t rows).1 ≤ r.date)
                && decide (r.date ≤ (getWindowBounds t rows).2))).filter (fun r =>
              (decide (r.player = p) && decide (r.slug = s))
                && (decide (7 ≤ (getWindowBounds t rows).2 - r.date)
                  && decide ((getWindowBounds t rows).2 - r.date ≤ 13)))).length
          ∧ e.mentionsOld = ((rows.filter (fun r =>
              decide ((getWindowBounds t rows).1 ≤ r.date)
                && decide (r.date ≤ (getWindowBounds t rows).2))).filter (fun r =>
              (decide (r.player = p) && decide (r.slug = s))
                && (decide (14 ≤ (getWindowBounds t rows).2 - r.date)
                  && decide ((getWindowBounds t rows).2 - r.date ≤ 27)))).length
          ∧ e.score = (e.mentionsRecent : ℚ) * 1 + (e.mentionsMid : ℚ) * (1 / 2)
              + (e.mentionsOld : ℚ) * (1 / 4)) := by
  constructor
  · exact calculateRankings_bucket_counts
  · intro t rows e he
    by_cases hre : rows.isEmpty = true
    · rw [computePlayerScores, if_pos hre] at he
      simp at he
    · rw [computePlayerScores, if_neg hre] at he
      have hwin : ∀ r ∈ rows.filter (fun r =>
          decide ((getWindowBounds t rows).1 ≤ r.date)
            && decide (r.date ≤ (getWindowBounds t rows).2)),
          r.date ≤ (getWindowBounds t rows).2 := by
        intro r hr
        have := (List.mem_filter.mp hr).2
        simp only [Bool.and_eq_true, decide_eq_true_eq] at this
        exact this.2
      obtain ⟨p, s, h1, h2, h3, h4, h5, h6, _⟩ :=
        scoreCore_bucket_counts _ _ hwin e he
      exact ⟨p, s, h1, h2, h3, h4, h5, h6⟩

/-- Witness for C2 at concrete inputs: the scraper entry of a single rumor 7
days old, and the streamlit entry of a single row 2 days before the window
end. -/
theorem c2_witness :
    ((⟨"A", 1, 1, 0, 0, 1, some 0, some 0, 1⟩ : RankEntry).mentionsWeek1
        = (([⟨0, "A", "t", "h", "o", "u"⟩] : List RankRumor).filter (fun r =>
            decide (r.player = "A") && decide (7 - r.date ≤ 7))).length
      ∧ (⟨"A", 1, 1, 0, 0, 1, some 0, some 0, 1⟩ : RankEntry).mentionsWeek2
        = (([⟨0, "A", "t", "h", "o", "u"⟩] : List RankRumor).filter (fun r =>
            decide (r.player = "A")
              && (!decide (7 - r.date ≤ 7) && decide (7 - r.date ≤ 14)))).length
      ∧ (⟨"A", 1, 1, 0, 0, 1, some 0, some 0, 1⟩ : RankEntry).mentionsWeeks34
        = (([⟨0, "A", "t", "h", "o", "u"⟩] : List RankRumor).filter (fun r =>
            decide (r.player = "A")
              && (!decide (7 - r.date ≤ 7) && !decide (7 - r.date ≤ 14)))).length
      ∧ (⟨"A", 1, 1, 0, 0, 1, some 0, some 0, 1⟩ : RankEntry).totalMentions
        = (([⟨0, "A", "t", "h", "o", "u"⟩] : List RankRumor).filter (fun r =>
            decide (r.player = "A"))).length
      ∧ (⟨"A", 1, 1, 0, 0, 1, some 0, some 0, 1⟩ : RankEntry).score
        = roundQ2 ((1 : ℚ) * 1 + (0 : ℚ) * (1 / 2) + (0 : ℚ) * (1 / 4)))
    ∧ (∃ p s : String,
        (⟨"A", "a", 1, 1, 0, 0, 3, 3, 1⟩ : ScoreEntry).player = applyNameFixes p
        ∧ (⟨"A", "a", 1, 1, 0, 0, 3, 3, 1⟩ : ScoreEntry).slug = s
        ∧ (⟨"A", "a", 1, 1, 0, 0, 3, 3, 1⟩ : ScoreEntry).mentionsRecent
          = ((([⟨3, "A", "a"⟩] : List SRow).filter (fun r =>
              decide ((getWindowBounds 5 [⟨3, "A", "a"⟩]).1 ≤ r.date)
                && decide (r.date ≤ (getWindowBounds 5 [⟨3, "A", "a"⟩]).2))).filter (fun r =>
              (decide (r.player = p) && decide (r.slug = s))
                && (decide (0 ≤ (getWindowBounds 5 [⟨3, "A", "a"⟩]).2 - r.date)
                  && decide ((getWindowBounds 5 [⟨3, "A", "a"⟩]).2 - r.date ≤ 6)))).length
        ∧ (⟨"A", "a", 1, 1, 0, 0, 3, 3, 1⟩ : ScoreEntry).mentionsMid
          = ((([⟨3, "A", "a"⟩] : List SRow).filter (fun r =>
              decide ((getWindowBounds 5 [⟨3, "A", "a"⟩]).1 ≤ r.date)
                && decide (r.date ≤ (getWindowBounds 5 [⟨3, "A", "a"⟩]).2))).filter (fun r =>
              (decide (r.player = p) && decide (r.slug = s))
                && (decide (7 ≤ (getWindowBounds 5 [⟨3, "A", "a"⟩]).2 - r.date)
                  && decide ((getWindowBounds 5 [⟨3, "A", "a"⟩]).2 - r.date ≤ 13)))).length
        ∧ (⟨"A", "a", 1, 1, 0, 0, 3, 3, 1⟩ : ScoreEntry).mentionsOld
          = ((([⟨3, "A", "a"⟩] : List SRow).filter (fun r =>
              decide ((getWindowBounds 5 [⟨3, "A", "a"⟩]).1 ≤ r.date)
                && decide (r.date ≤ (getWindowBounds 5 [⟨3, "A", "a"⟩]).2))).filter (fun r =>
              (decide (r.player = p) && decide (r.slug = s))
                && (decide (14 ≤ (getWindowBounds 5 [⟨3, "A", "a"⟩]).2 - r.date)
                  && decide ((getWindowBounds 5 [⟨3, "A", "a"⟩]).2 - r.date ≤ 27)))).length
        ∧ (⟨"A", "a", 1, 1, 0, 0, 3, 3, 1⟩ : ScoreEntry).score
          = ((⟨"A", "a", 1, 1, 0, 0, 3, 3, 1⟩ : ScoreEntry).mentionsRecent : ℚ) * 1
            + ((⟨"A", "a", 1, 1, 0, 0, 3, 3, 1⟩ : ScoreEntry).mentionsMid : ℚ) * (1 / 2)
            + ((⟨"A", "a", 1, 1, 0, 0, 3, 3, 1⟩ : ScoreEntry).mentionsOld : ℚ) * (1 / 4)) := by
  constructor
  · exact c2_amended_thm.1 7 [⟨0, "A", "t", "h", "o", "u"⟩]
      ⟨"A", 1, 1, 0, 0, 1, some 0, some 0, 1⟩
      (by
        rw [show calculateRankings 7 [⟨0, "A", "t", "h", "o", "u"⟩]
            = [⟨"A", 1, 1, 0, 0, 1, some 0, some 0, 1⟩] from by
          norm_num [calculateRankings, playerData, stepPD, alUpdate, updOne,
            emptyPData, toRankEntry, insSort, insertLe, List.enum, roundQ2,
            storedKey, toStored]]
        exact List.mem_singleton.mpr rfl)
  · exact c2_amended_thm.2 5 [⟨3, "A", "a"⟩] ⟨"A", "a", 1, 1, 0, 0, 3, 3, 1⟩
      (by
        rw [show computePlayerScores 5 [⟨3, "A", "a"⟩]
            = [⟨"A", "a", 1, 1, 0, 0, 3, 3, 1⟩] from by
          norm_num [computePlayerScores, scoreCore, getWindowBounds, dmaxDate,
            dminDate, entryForKey, insSort, insertLe, dedupeBy, dedupeByGo]
          decide]
        exact List.mem_singleton.mpr rfl)

/-! ## Claim C3 -/

theorem rankLE_trans (a b c : RankEntry) (hab : rankLE a b = true)
    (hbc : rankLE b c = true) : rankLE a c = true :=
  tripLE_trans _ _ _ hab hbc

theorem rankLE_total (a b : RankEntry) :
    rankLE a b = true ∨ rankLE b a = true :=
  tripLE_total _ _

theorem scoreLE_trans (a b c : ScoreEntry) (hab : scoreLE a b = true)
    (hbc : scoreLE b c = true) : scoreLE a c = true :=
  tripLE_trans _ _ _ hab hbc

theorem scoreLE_total (a b : ScoreEntry) :
    scoreLE a b = true ∨ scoreLE b a = true :=
  tripLE_total _ _

/-- The ranking order of the spec sentence behind claim C3: score descending,
ties by the recent-bucket mention count descending, remaining ties by player
name ascending. Stated from the spec's words for comparison with the code's
sort key. -/
def specRankLE (a b : RankEntry) : Prop :=
  b.score < a.score
    ∨ (a.score = b.score
        ∧ (b.mentionsWeek1 < a.mentionsWeek1
            ∨ (a.mentionsWeek1 = b.mentionsWeek1
                ∧ chLe a.player.data b.player.data = true)))

/-- Claim C3, as stated, is false: with two players of equal score 2, where
player A has 2 recent-bucket mentions and player B has 1 recent-bucket but 3
total mentions, `calculate_rankings` puts B first (its tie-break is total
mentions, not the recent bucket), so the produced order violates the claimed
comparator. -/
theorem c3_counterexample :
    (calculateRankings 10
        [⟨10, "A", "t1", "h", "o", "u"⟩, ⟨10, "A", "t2", "h", "o", "u"⟩,
         ⟨10, "B", "t3", "h", "o", "u"⟩, ⟨1, "B", "t4", "h", "o", "u"⟩,
         ⟨1, "B", "t5", "h", "o", "u"⟩]).map
        (fun e => (e.player, e.rank, e.score, e.mentionsWeek1))
      = [("B", 1, 2, 1), ("A", 2, 2, 2)]
    ∧ ¬ (calculateRankings 10
        [⟨10, "A", "t1", "h", "o", "u"⟩, ⟨10, "A", "t2", "h", "o", "u"⟩,
         ⟨10, "B", "t3", "h", "o", "u"⟩, ⟨1, "B", "t4", "h", "o", "u"⟩,
         ⟨1, "B", "t5", "h", "o", "u"⟩]).Pairwise specRankLE := by
  have heq : calculateRankings 10
      [⟨10, "A", "t1", "h", "o", "u"⟩, ⟨10, "A", "t2", "h", "o", "u"⟩,
       ⟨10, "B", "t3", "h", "o", "u"⟩, ⟨1, "B", "t4", "h", "o", "u"⟩,
       ⟨1, "B", "t5", "h", "o", "u"⟩]
      = [⟨"B", 2, 1, 2, 0, 3, some 1, some 10, 1⟩,
         ⟨"A", 2, 2, 0, 0, 2, some 10, some 10, 2⟩] := by
    have hta : pyTake "t2" 100 ≠ pyTake "t1" 100 := by decide
    have htb : pyTake "t5" 100 ≠ pyTake "t4" 100 := by decide
    norm_num [calculateRankings, playerData, stepPD, alUpdate, updOne,
      emptyPData, toRankEntry, insSort, insertLe, List.enum, roundQ2,
      storedKey, toStored, rankLE, rankKey, tripLE, ltThen, chLe, chLt,
      hta, htb]
  rw [heq]
  constructor
  · rfl
  · rw [List.pairwise_cons]
    intro hp
    have hba := hp.1 _ (List.mem_singleton.mpr rfl)
    rcases hba with h | ⟨_, h | ⟨he, _⟩⟩
    · exact absurd h (by norm_num)
    · exact absurd h (by norm_num)
    · exact absurd he (by norm_num)

/-- Claim C3 (amended): `calculate_rankings` sorts by score descending, ties
by total mention count descending (not the recent bucket), remaining ties by
player name ascending, and assigns rank as the 1-based position down that
order; the streamlit table is likewise the display-rename image of a list
sorted by score descending, last-mention date descending, player name
ascending. Both sorts are pure functions of the record set, so re-running on
unchanged inputs reproduces the identical order. -/
theorem c3_amended_thm :
    (∀ (t : Int) (rums : List RankRumor),
      (calculateRankings t rums).Pairwise (fun a b => rankLE a b = true))
    ∧ (∀ (t : Int) (rums : List RankRumor),
        (calculateRankings t rums).map (·.rank)
          = List.range' 1 (calculateRankings t rums).length)
    ∧ (∀ (we : Int) (win : List SRow), ∃ es : List ScoreEntry,
        scoreCore we win
            = es.map (fun e => { e with player := applyNameFixes e.player })
          ∧ es.Pairwise (fun a b => scoreLE a b = true)) := by
  refine ⟨?_, ?_, ?_⟩
  · intro t rums
    rw [calculateRankings]
    have hs : (insSort rankLE ((playerData t rums).map toRankEntry)).Pairwise
        (fun a b => rankLE a b = true) :=
      pairwise_insSort rankLE rankLE_trans rankLE_total _
    have h1 : ((insSort rankLE ((playerData t rums).map toRankEntry)).enum).Pairwise
        (fun p q => rankLE p.2 q.2 = true) := by
      rw [← List.enum_map_snd (insSort rankLE ((playerData t rums).map toRankEntry))]
        at hs
      exact List.pairwise_map.mp hs
    rw [List.pairwise_map]
    exact h1.imp (fun h => h)
  · intro t rums
    rw [calculateRankings]
    rw [List.map_map]
    have h1 : ((insSort rankLE ((playerData t rums).map toRankEntry)).enum).map
        ((fun e => e.rank) ∘ (fun p : ℕ × RankEntry => { p.2 with rank := p.1 + 1 }))
        = ((insSort rankLE ((playerData t rums).map toRankEntry)).enum).map
          (fun p => p.1 + 1) := rfl
    rw [h1]
    have h2 : ((insSort rankLE ((playerData t rums).map toRankEntry)).enum).map
        (fun p => p.1 + 1)
        = (((insSort rankLE ((playerData t rums).map toRankEntry)).enum).map
          Prod.fst).map (fun i => i + 1) := by
      rw [List.map_map]
      rfl
    rw [h2, List.enum_map_fst, List.range'_eq_map_range]
    rw [List.length_map, List.enum_length]
    apply List.map_congr_left
    intro i _
    omega
  · intro we win
    rw [scoreCore]
    by_cases hw : win.isEmpty = true
    · rw [if_pos hw]
      exact ⟨[], rfl, List.Pairwise.nil⟩
    · rw [if_neg hw]
      exact ⟨_, rfl, pairwise_insSort scoreLE scoreLE_trans scoreLE_total _⟩

/-! ## Claim C4 -/

theorem filter_erase_of_neg (p : SRow → Bool) (r : SRow) (hp : p r = false) :
    ∀ l : List SRow, (l.erase r).filter p = l.filter p := by
  intro l
  induction l with
  | nil => rfl
  | cons x xs ih =>
    rw [List.erase_cons]
    by_cases hx : x = r
    · rw [if_pos (by simp [hx])]
      rw [List.filter_cons_of_neg (by rw [hx, hp]; simp)]
    · rw [if_neg (by simp [hx])]
      by_cases hpx : p x = true
      · rw [List.filter_cons_of_pos hpx, List.filter_cons_of_pos hpx, ih]
      · rw [List.filter_cons_of_neg (by simpa using hpx),
          List.filter_cons_of_neg (by simpa using hpx), ih]

theorem dmaxDate_le_of (l : List SRow) (v : Int) (hne : l ≠ [])
    (h : ∀ x ∈ l, x.date ≤ v) : dmaxDate l ≤ v := by
  obtain ⟨x, hx, he⟩ := dmaxDate_mem l hne
  rw [← he]
  exact h x hx

theorem dmaxDate_erase (rows : List SRow) (r : SRow) (hr : r ∈ rows)
    (hlt : r.date < dmaxDate rows) :
    dmaxDate (rows.erase r) = dmaxDate rows := by
  obtain ⟨rm, hrm, hdm⟩ := dmaxDate_mem rows (List.ne_nil_of_mem hr)
  have hne : rm ≠ r := by
    intro h
    subst h
    rw [hdm] at hlt
    exact absurd hlt (lt_irrefl _)
  have hmem2 : rm ∈ rows.erase r := (List.mem_erase_of_ne hne).mpr hrm
  refine le_antisymm ?_ ?_
  · refine dmaxDate_le_of _ _ (List.ne_nil_of_mem hmem2) ?_
    intro x hx
    exact dmaxDate_le rows x (List.mem_of_mem_erase hx)
  · rw [← hdm]
    exact dmaxDate_le _ rm hmem2

/-- Claim C4, as stated, is false for the scraper's scoring path:
`calculate_rankings` never filters by window — with `asOf = 100` (both the
wall clock and the maximum date), a record dated day 0 is 100 days old, far
outside `[asOf - 27, asOf]`, yet its player is listed with score `1/4`. -/
theorem c4_counterexample :
    (calculateRankings 100
        [⟨100, "B", "t", "h", "o", "u"⟩, ⟨0, "A", "t", "h", "o", "u"⟩]).map
        (fun e => (e.player, e.score)) = [("B", 1), ("A", 1 / 4)]
      ∧ (0 : Int) < 100 - 27
      ∧ (1 / 4 : ℚ) ≠ 0 := by
  refine ⟨?_, by norm_num, by norm_num⟩
  norm_num [calculateRankings, playerData, stepPD, alUpdate, updOne, emptyPData,
    toRankEntry, insSort, insertLe, List.enum, roundQ2, storedKey, toStored,
    rankLE, rankKey, tripLE, ltThen, chLe, chLt]

/-- Claim C4 (amended): window exclusivity holds for the streamlit engine —
removing any record dated before the window start leaves the whole score
table unchanged, and (by the C2 bucket characterization) the counted records
are exactly the window rows — while the scraper's `calculate_rankings`
applies no window filter at all: every input record contributes to its
player's total mention count (hence to a bucket and the score) regardless of
its date. -/
theorem c4_amended_thm :
    (∀ (t : Int) (rows : List SRow) (r : SRow), r ∈ rows →
      r.date < (getWindowBounds t rows).1 →
      computePlayerScores t (rows.erase r) = computePlayerScores t rows)
    ∧ (∀ (t : Int) (rums : List RankRumor), ∀ e ∈ calculateRankings t rums,
        e.totalMentions = (rums.filter (fun x =>
          decide (x.player = e.player))).length) := by
  constructor
  · intro t rows r hr hlt
    have hne : rows ≠ [] := List.ne_nil_of_mem hr
    rw [getWindowBounds_of_ne_nil t rows hne] at hlt
    have hltm : r.date < dmaxDate rows := by
      have := hlt
      omega
    obtain ⟨rm, hrm, hdm⟩ := dmaxDate_mem rows hne
    have hrmne : rm ≠ r := by
      intro h
      subst h
      rw [hdm] at hltm
      exact absurd hltm (lt_irrefl _)
    have hene : rows.erase r ≠ [] :=
      List.ne_nil_of_mem ((List.mem_erase_of_ne hrmne).mpr hrm)
    have hmax : dmaxDate (rows.erase r) = dmaxDate rows :=
      dmaxDate_erase rows r hr hltm
    have hb : getWindowBounds t (rows.erase r) = getWindowBounds t rows := by
      rw [getWindowBounds_of_ne_nil t _ hene, getWindowBounds_of_ne_nil t _ hne,
        hmax]
    have hf : (rows.erase r).filter (fun x =>
          decide ((getWindowBounds t rows).1 ≤ x.date)
            && decide (x.date ≤ (getWindowBounds t rows).2))
        = rows.filter (fun x =>
          decide ((getWindowBounds t rows).1 ≤ x.date)
            && decide (x.date ≤ (getWindowBounds t rows).2)) := by
      refine filter_erase_of_neg _ r ?_ rows
      rw [getWindowBounds_of_ne_nil t rows hne]
      have hrlt : ¬ dmaxDate rows - 27 ≤ r.date := by
        have := hlt
        simp only at this
        omega
      simp [hrlt]
    have hee : (rows.erase r).isEmpty = false := by
      cases he : rows.erase r with
      | nil => exact absurd he hene
      | cons a l => rfl
    have hre : rows.isEmpty = false := by
      cases he : rows with
      | nil => exact absurd he hne
      | cons a l => rfl
    rw [computePlayerScores, computePlayerScores, hee, hre]
    simp only [Bool.false_eq_true, if_false]
    rw [hb, hf]
  · intro t rums e he
    exact (calculateRankings_bucket_counts t rums e he).2.2.2.1

/-- Witness for C4 at concrete inputs: dropping an out-of-window row leaves
the streamlit table unchanged; the scraper total counts every record of the
player. -/
theorem c4_witness :
    computePlayerScores 50
        (([⟨100, "B", "b"⟩, ⟨0, "A", "a"⟩] : List SRow).erase ⟨0, "A", "a"⟩)
      = computePlayerScores 50 [⟨100, "B", "b"⟩, ⟨0, "A", "a"⟩]
    ∧ (⟨"A", 1, 1, 0, 0, 1, some 0, some 0, 1⟩ : RankEntry).totalMentions
      = (([⟨0, "A", "t", "h", "o", "u"⟩] : List RankRumor).filter (fun x =>
          decide (x.player = "A"))).length := by
  constructor
  · exact c4_amended_thm.1 50 [⟨100, "B", "b"⟩, ⟨0, "A", "a"⟩] ⟨0, "A", "a"⟩
      (by decide) (by decide)
  · exact c4_amended_thm.2 7 [⟨0, "A", "t", "h", "o", "u"⟩]
      ⟨"A", 1, 1, 0, 0, 1, some 0, some 0, 1⟩
      (by
        rw [show calculateRankings 7 [⟨0, "A", "t", "h", "o", "u"⟩]
            = [⟨"A", 1, 1, 0, 0, 1, some 0, some 0, 1⟩] from by
          norm_num [calculateRankings, playerData, stepPD, alUpdate, updOne,
            emptyPData, toRankEntry, insSort, insertLe, List.enum, roundQ2,
            storedKey, toStored]]
        exact List.mem_singleton.mpr rfl)

/-! ## Claim C5 -/

/-- Claim C5, as stated, is false: the scraper's dedup keys on
`(date, player, url, snippet)` — the full snippet plus the URL, not the
claim's `(player, date, snippet[:100])` triple — so two records agreeing on
that triple but differing in URL both survive. -/
theorem c5_counterexample :
    scrapeDedup [⟨1, "A", "s", "u1", "t"⟩, ⟨1, "A", "s", "u2", "t"⟩]
        = [⟨1, "A", "s", "u1", "t"⟩, ⟨1, "A", "s", "u2", "t"⟩]
      ∧ (⟨1, "A", "s", "u1", "t"⟩ : RumorRow).player
          = (⟨1, "A", "s", "u2", "t"⟩ : RumorRow).player
      ∧ (⟨1, "A", "s", "u1", "t"⟩ : RumorRow).date
          = (⟨1, "A", "s", "u2", "t"⟩ : RumorRow).date
      ∧ pyTake (⟨1, "A", "s", "u1", "t"⟩ : RumorRow).snippet 100
          = pyTake (⟨1, "A", "s", "u2", "t"⟩ : RumorRow).snippet 100
      ∧ (⟨1, "A", "s", "u1", "t"⟩ : RumorRow) ≠ ⟨1, "A", "s", "u2", "t"⟩ := by
  refine ⟨by decide, rfl, rfl, rfl, by decide⟩

/-- Claim C5 (amended): both dedup passes keep the first-seen record of each
key and drop every later record with a seen key, but their keys differ from
the claim: the scraper (`scrape`) keys on the quadruple
`(date, player, url, snippet)` with the full snippet, so its output is a
subsequence of the input with pairwise distinct quadruples in which each
survivor is the first input record of its key; the rankings builder
(`calculate_rankings`) dedups only each player's stored rumor list, by
`(date, text[:100])` — which together with the per-player grouping is the
claim's triple — so no two stored rumors of one player agree on that key. -/
theorem c5_amended_thm :
    (∀ rows : List RumorRow,
      (scrapeDedup rows).Pairwise (fun a b => scrapeKey a ≠ scrapeKey b))
    ∧ (∀ rows : List RumorRow, List.Sublist (scrapeDedup rows) rows)
    ∧ (∀ rows : List RumorRow, ∀ r ∈ scrapeDedup rows,
        rows.find? (fun x => scrapeKey x = scrapeKey r) = some r)
    ∧ (∀ (t : Int) (rums : List RankRumor) (p : String) (d : PData),
        alookup (playerData t rums) p = some d →
        d.rumors.Pairwise (fun a b => storedKey a ≠ storedKey b)) := by
  refine ⟨?_, ?_, ?_, ?_⟩
  · intro rows; exact dedupeBy_pairwise scrapeKey rows
  · intro rows; exact dedupeBy_sublist scrapeKey rows
  · intro rows; exact dedupeBy_mem_find? scrapeKey rows
  · intro t rums p d h
    rw [alookup_playerData_foldUpd t rums p d h]
    exact foldUpd_rumors_pairwise t _ emptyPData List.Pairwise.nil

/-- Witness for C5 at concrete inputs. -/
theorem c5_witness :
    (scrapeDedup [⟨1, "A", "s", "u1", "t"⟩, ⟨1, "A", "s", "u2", "t"⟩]).Pairwise
        (fun a b => scrapeKey a ≠ scrapeKey b)
      ∧ List.Sublist
          (scrapeDedup [⟨1, "A", "s", "u1", "t"⟩, ⟨1, "A", "s", "u1", "x"⟩])
          [⟨1, "A", "s", "u1", "t"⟩, ⟨1, "A", "s", "u1", "x"⟩]
      ∧ ([⟨1, "A", "s", "u1", "t"⟩, ⟨1, "A", "s", "u1", "x"⟩] :
          List RumorRow).find?
          (fun x => scrapeKey x = scrapeKey ⟨1, "A", "s", "u1", "t"⟩)
          = some ⟨1, "A", "s", "u1", "t"⟩
      ∧ (⟨1, 0, 0, 1, some 0, some 0,
          [⟨0, "t", "h", "o", "u"⟩]⟩ : PData).rumors.Pairwise
          (fun a b => storedKey a ≠ storedKey b) := by
  refine ⟨?_, ?_, ?_, ?_⟩
  · exact c5_amended_thm.1 [⟨1, "A", "s", "u1", "t"⟩, ⟨1, "A", "s", "u2", "t"⟩]
  · exact c5_amended_thm.2.1 [⟨1, "A", "s", "u1", "t"⟩, ⟨1, "A", "s", "u1", "x"⟩]
  · exact c5_amended_thm.2.2.1
      [⟨1, "A", "s", "u1", "t"⟩, ⟨1, "A", "s", "u1", "x"⟩]
      ⟨1, "A", "s", "u1", "t"⟩ (by decide)
  · exact c5_amended_thm.2.2.2 3 [⟨0, "A", "t", "h", "o", "u"⟩] "A"
      ⟨1, 0, 0, 1, some 0, some 0, [⟨0, "t", "h", "o", "u"⟩]⟩ (by decide)

/-! ## Claim C6 -/

/-- Claim C6: the scraper's deduplication is idempotent — applying
`drop_duplicates` (first-seen keyed dedup) to its own output is a no-op. -/
theorem c6_thm (rows : List RumorRow) :
    scrapeDedup (scrapeDedup rows) = scrapeDedup rows :=
  dedupeBy_idem scrapeKey rows

/-! ## Claim C7 -/

/-- Claim C7, as stated, is false: on a terminating page (oldest parsed date
0 before the cutoff 10) the record dated 0 is collected by the page loop of
`scrape_all_rumors` but then removed by the window filter inside that same
controller function, so it is not retained in the collected output. -/
theorem c7_counterexample :
    (⟨0, "A", "t", "h", "o", "u"⟩ : RankRumor) ∈
        collectPages 10 [⟨[⟨0, "A", "t", "h", "o", "u"⟩,
          ⟨50, "B", "t", "h", "o", "u"⟩], true, some 0⟩]
      ∧ (⟨0, "A", "t", "h", "o", "u"⟩ : RankRumor).date < 10
      ∧ (⟨0, "A", "t", "h", "o", "u"⟩ : RankRumor) ∉
          scrapeAllRumors 10 [⟨[⟨0, "A", "t", "h", "o", "u"⟩,
            ⟨50, "B", "t", "h", "o", "u"⟩], true, some 0⟩] := by
  refine ⟨by decide, by decide, by decide⟩

/-- Claim C7 (amended): the page loop itself retains every fragment of the
page it stops on (collection precedes the stop decision), but window
filtering does not happen only downstream: `scrape_all_rumors` filters its
collected output to dates at or after the cutoff before returning, and the
rumor scraper's `scrape_page` drops any fragment dated before the cutoff
while collecting the page. -/
theorem c7_amended_thm :
    (∀ (cutoff : Int) (fuel : Nat) (p : PageResult) (rest : List PageResult),
      ∀ r ∈ p.rumors, r ∈ collectPagesGo cutoff (fuel + 1) (p :: rest))
    ∧ (∀ (cutoff : Int) (pages : List PageResult) (r : RankRumor),
        r ∈ scrapeAllRumors cutoff pages ↔
          r ∈ collectPages cutoff pages ∧ cutoff ≤ r.date)
    ∧ (∀ (cutoff : Int) (players : List String) (frags : List Frag),
        (scrapePageRumors cutoff players frags).1
          = frags.filterMap (rowOfFrag cutoff players))
    ∧ (∀ (cutoff : Int) (players : List String) (f : Frag) (d : Int),
        f.date = some d → d < cutoff → rowOfFrag cutoff players f = none) := by
  refine ⟨?_, ?_, ?_, ?_⟩
  · intro cutoff fuel p rest r hr
    rw [collectPagesGo]
    exact List.mem_append_left _ hr
  · intro cutoff pages r
    simp [scrapeAllRumors, List.mem_filter]
  · intro cutoff players frags
    rw [scrapePageRumors]
    by_cases hf : frags.isEmpty = true
    · rw [if_pos hf]
      cases frags with
      | nil => rfl
      | cons a l => simp at hf
    · rw [if_neg hf]
  · intro cutoff players f d hd hlt
    rw [rowOfFrag, hd]
    simp only [if_pos hlt]

/-- Witness for C7 at concrete inputs. -/
theorem c7_witness :
    (⟨0, "A", "t", "h", "o", "u"⟩ : RankRumor) ∈
        collectPagesGo 10 (0 + 1) [⟨[⟨0, "A", "t", "h", "o", "u"⟩], false, some 0⟩]
      ∧ rowOfFrag 10 [] ⟨some 0, "text", none, ""⟩ = none := by
  constructor
  · exact c7_amended_thm.1 10 0 ⟨[⟨0, "A", "t", "h", "o", "u"⟩], false, some 0⟩
      [] ⟨0, "A", "t", "h", "o", "u"⟩ (by decide)
  · exact c7_amended_thm.2.2.2 10 [] ⟨some 0, "text", none, ""⟩ 0 rfl (by decide)

/-! ## Claim C8 -/

theorem pyMaxByLen_spec :
    ∀ (rest : List String) (m : String),
      (pyMaxByLen m rest = m ∨ pyMaxByLen m rest ∈ rest)
      ∧ m.length ≤ (pyMaxByLen m rest).length
      ∧ ∀ x ∈ rest, x.length ≤ (pyMaxByLen m rest).length := by
  intro rest
  induction rest with
  | nil =>
    intro m
    exact ⟨Or.inl rfl, le_refl _, by simp⟩
  | cons y ys ih =>
    intro m
    have hstep : pyMaxByLen m (y :: ys)
        = pyMaxByLen (if m.length < y.length then y else m) ys := rfl
    obtain ⟨hmem, hge, hall⟩ := ih (if m.length < y.length then y else m)
    refine ⟨?_, ?_, ?_⟩
    · rw [hstep]
      rcases hmem with h | h
      · rw [h]
        by_cases hc : m.length < y.length
        · rw [if_pos hc]
          exact Or.inr (List.mem_cons_self _ _)
        · rw [if_neg hc]
          exact Or.inl rfl
      · exact Or.inr (List.mem_cons_of_mem _ h)
    · rw [hstep]
      refine le_trans ?_ hge
      by_cases hc : m.length < y.length
      · rw [if_pos hc]; exact le_of_lt hc
      · rw [if_neg hc]
    · intro x hx
      rw [hstep]
      rcases List.mem_cons.mp hx with h | h
      · subst h
        refine le_trans ?_ hge
        by_cases hc : m.length < x.length
        · rw [if_pos hc]
        · rw [if_neg hc]
          omega
      · exact hall x h

/-- Claim C8: resolution precedence and the longest-name heuristic. In
`infer_player_for_row`, whenever some canonical full name matches the text
with word boundaries (for a row whose player is blank or the placeholder),
the result is a matching full name of maximal length — the last-name
fallback is never consulted; `guess_player` likewise returns the formatted
longest roster substring match and has no last-name fallback at all. -/
theorem c8_thm :
    (∀ (row : CsvRow) (fullNames : List String)
        (lastToNames : List (String × List String)),
      ¬ (pyStrip row.player ≠ "" ∧ pyUpper (pyStrip row.player) ≠ PLACEHOLDER) →
      ∀ nm ∈ fullNames,
        wbContains (pyLower (row.title ++ " " ++ row.snippet)) (pyLower nm)
          = true →
        ∃ best, best ∈ fullNames
          ∧ wbContains (pyLower (row.title ++ " " ++ row.snippet))
              (pyLower best) = true
          ∧ (∀ x ∈ fullNames,
              wbContains (pyLower (row.title ++ " " ++ row.snippet))
                (pyLower x) = true → x.length ≤ best.length)
          ∧ inferPlayerForRow row fullNames lastToNames = best)
    ∧ (∀ (snippet : String) (playersUpper : List String),
        snippet ≠ "" →
        ∀ nm ∈ playersUpper,
          hasSubstr nm.data (pyUpper snippet).data = true →
          ∃ best, best ∈ playersUpper
            ∧ hasSubstr best.data (pyUpper snippet).data = true
            ∧ (∀ x ∈ playersUpper,
                hasSubstr x.data (pyUpper snippet).data = true →
                x.length ≤ best.length)
            ∧ guessPlayer snippet playersUpper
                = some (formatGuessName best)) := by
  constructor
  · intro row fullNames lastToNames hcur nm hnm hmatch
    have hnmm : nm ∈ fullNames.filter (fun n =>
        wbContains (pyLower (row.title ++ " " ++ row.snippet)) (pyLower n)) :=
      List.mem_filter.mpr ⟨hnm, hmatch⟩
    simp only [inferPlayerForRow, if_neg hcur]
    cases hm : fullNames.filter (fun n =>
        wbContains (pyLower (row.title ++ " " ++ row.snippet)) (pyLower n)) with
    | nil =>
      rw [hm] at hnmm
      simp at hnmm
    | cons m tail =>
      cases htail : tail with
      | nil =>
        refine ⟨m, ?_, ?_, ?_, rfl⟩
        · have hmm : m ∈ fullNames.filter (fun n =>
              wbContains (pyLower (row.title ++ " " ++ row.snippet))
                (pyLower n)) := by
            rw [hm]
            exact List.mem_cons_self _ _
          exact (List.mem_filter.mp hmm).1
        · have hmm : m ∈ fullNames.filter (fun n =>
              wbContains (pyLower (row.title ++ " " ++ row.snippet))
                (pyLower n)) := by
            rw [hm]
            exact List.mem_cons_self _ _
          exact (List.mem_filter.mp hmm).2
        · intro x hx hxm
          have : x ∈ fullNames.filter (fun n =>
              wbContains (pyLower (row.title ++ " " ++ row.snippet))
                (pyLower n)) :=
            List.mem_filter.mpr ⟨hx, hxm⟩
          rw [hm, htail] at this
          rw [List.mem_singleton.mp this]
      | cons m2 rest =>
        subst htail
        obtain ⟨hmem, hge, hall⟩ := pyMaxByLen_spec (m2 :: rest) m
        have hbestmem : pyMaxByLen m (m2 :: rest) ∈ fullNames.filter (fun n =>
            wbContains (pyLower (row.title ++ " " ++ row.snippet))
              (pyLower n)) := by
          rw [hm]
          rcases hmem with h | h
          · rw [h]; exact List.mem_cons_self _ _
          · exact List.mem_cons_of_mem _ h
        refine ⟨pyMaxByLen m (m2 :: rest),
          (List.mem_filter.mp hbestmem).1,
          (List.mem_filter.mp hbestmem).2, ?_, rfl⟩
        intro x hx hxm
        have hxf : x ∈ fullNames.filter (fun n =>
            wbContains (pyLower (row.title ++ " " ++ row.snippet))
              (pyLower n)) :=
          List.mem_filter.mpr ⟨hx, hxm⟩
        rw [hm] at hxf
        rcases List.mem_cons.mp hxf with h | h
        · subst h; exact hge
        · exact hall x h
  · intro snippet playersUpper hsne nm hnm hmatch
    have hnmm : nm ∈ playersUpper.filter (fun nameUpper =>
        hasSubstr nameUpper.data (pyUpper snippet).data) :=
      List.mem_filter.mpr ⟨hnm, hmatch⟩
    rw [guessPlayer, if_neg hsne]
    cases hm : playersUpper.filter (fun nameUpper =>
        hasSubstr nameUpper.data (pyUpper snippet).data) with
    | nil =>
      rw [hm] at hnmm
      simp at hnmm
    | cons m rest =>
      obtain ⟨hmem, hge, hall⟩ := pyMaxByLen_spec rest m
      have hbestmem : pyMaxByLen m rest ∈ playersUpper.filter (fun nameUpper =>
          hasSubstr nameUpper.data (pyUpper snippet).data) := by
        rw [hm]
        rcases hmem with h | h
        · rw [h]; exact List.mem_cons_self _ _
        · exact List.mem_cons_of_mem _ h
      refine ⟨pyMaxByLen m rest, (List.mem_filter.mp hbestmem).1,
        (List.mem_filter.mp hbestmem).2, ?_, rfl⟩
      intro x hx hxm
      have hxf : x ∈ playersUpper.filter (fun nameUpper =>
          hasSubstr nameUpper.data (pyUpper snippet).data) :=
        List.mem_filter.mpr ⟨hx, hxm⟩
      rw [hm] at hxf
      rcases List.mem_cons.mp hxf with h | h
      · subst h; exact hge
      · exact hall x h

/-- Witness for C8: the spec's scenario A. The roster holds LeBron James and
Bronny James, the text mentions Bronny James; resolution must pick the full
name Bronny James in both resolvers. -/
theorem c8_witness :
    (∃ best, best ∈ ["LeBron James", "Bronny James"]
      ∧ wbContains (pyLower ("Bronny James drew interest" ++ " " ++ ""))
          (pyLower best) = true
      ∧ (∀ x ∈ ["LeBron James", "Bronny James"],
          wbContains (pyLower ("Bronny James drew interest" ++ " " ++ ""))
            (pyLower x) = true → x.length ≤ best.length)
      ∧ inferPlayerForRow ⟨"PLAYER", "Bronny James drew interest", ""⟩
          ["LeBron James", "Bronny James"]
          (buildLastNameIndex ["LeBron James", "Bronny James"]) = best)
    ∧ (∃ best, best ∈ ["LEBRON JAMES", "BRONNY JAMES"]
      ∧ hasSubstr best.data (pyUpper "Bronny James drew interest").data = true
      ∧ (∀ x ∈ ["LEBRON JAMES", "BRONNY JAMES"],
          hasSubstr x.data (pyUpper "Bronny James drew interest").data = true →
          x.length ≤ best.length)
      ∧ guessPlayer "Bronny James drew interest" ["LEBRON JAMES", "BRONNY JAMES"]
          = some (formatGuessName best)) := by
  constructor
  · exact c8_thm.1 ⟨"PLAYER", "Bronny James drew interest", ""⟩
      ["LeBron James", "Bronny James"]
      (buildLastNameIndex ["LeBron James", "Bronny James"])
      (by decide) "Bronny James" (by decide) (by decide)
  · exact c8_thm.2 "Bronny James drew interest" ["LEBRON JAMES", "BRONNY JAMES"]
      (by decide) "BRONNY JAMES" (by decide) (by decide)

/-! ## Claim C9 -/

theorem rowOfFrag_date (cutoff : Int) (players : List String) (f : Frag)
    (r : RumorRow) (h : rowOfFrag cutoff players f = some r) :
    f.date = some r.date := by
  cases hd : f.date with
  | none =>
    simp only [rowOfFrag, hd] at h
    exact absurd h (by simp)
  | some d =>
    simp only [rowOfFrag, hd] at h
    by_cases hlt : d < cutoff
    · rw [if_pos hlt] at h
      exact absurd h (by simp)
    · rw [if_neg hlt] at h
      cases hg : guessPlayer f.snippet players with
      | none =>
        rw [hg] at h
        exact absurd h (by simp)
      | some p =>
        rw [hg] at h
        rw [Option.some.injEq] at h
        rw [← h]

theorem scrapePageRumors_fst (cutoff : Int) (players : List String)
    (frags : List Frag) :
    (scrapePageRumors cutoff players frags).1
      = frags.filterMap (rowOfFrag cutoff players) := by
  rw [scrapePageRumors]
  by_cases hf : frags.isEmpty = true
  · rw [if_pos hf]
    cases frags with
    | nil => rfl
    | cons a l => simp at hf
  · rw [if_neg hf]

theorem processElems_date_from_holder (known : List String) :
    ∀ (elems : List PageElem) (rows0 : List RankRumor) (cur old : Option Int),
      ∀ rec ∈ (elems.foldl (pageElemStep known) (rows0, cur, old)).1,
        rec ∈ rows0 ∨ cur = some rec.date
          ∨ PageElem.dateHolder (some rec.date) ∈ elems := by
  intro elems
  induction elems with
  | nil =>
    intro rows0 cur old rec hrec
    exact Or.inl hrec
  | cons e rest ih =>
    intro rows0 cur old rec hrec
    rw [List.foldl_cons] at hrec
    cases e with
    | dateHolder parsed =>
      cases parsed with
      | some d =>
        rcases ih rows0 (some d) (some d) rec hrec with h | h | h
        · exact Or.inl h
        · rw [Option.some.injEq] at h
          exact Or.inr (Or.inr (by rw [← h]; exact List.mem_cons_self _ _))
        · exact Or.inr (Or.inr (List.mem_cons_of_mem _ h))
      | none =>
        rcases ih rows0 none old rec hrec with h | h | h
        · exact Or.inl h
        · exact absurd h (by simp)
        · exact Or.inr (Or.inr (List.mem_cons_of_mem _ h))
    | rumor tags text textHtml outlet sourceUrl =>
      cases cur with
      | none =>
        rcases ih rows0 none old rec hrec with h | h | h
        · exact Or.inl h
        · exact absurd h (by simp)
        · exact Or.inr (Or.inr (List.mem_cons_of_mem _ h))
      | some d =>
        rcases ih (rows0 ++ (tags.filter (fun t => isPlayerTag t known)).map
            (fun t => { date := d, player := t, text := text,
                        textHtml := textHtml, outlet := outlet,
                        sourceUrl := sourceUrl })) (some d) old rec hrec
          with h | h | h
        · rcases List.mem_append.mp h with h2 | h2
          · exact Or.inl h2
          · rcases List.mem_map.mp h2 with ⟨tg, _, he⟩
            refine Or.inr (Or.inl ?_)
            rw [← he]
        · rw [Option.some.injEq] at h
          exact Or.inr (Or.inl (by rw [h]))
        · exact Or.inr (Or.inr (List.mem_cons_of_mem _ h))

/-- Claim C9: a fragment whose date cannot be resolved yields no record, and
no record's date is ever defaulted — every produced record carries the parsed
date of a fragment (rumor scraper) or of a preceding date holder (rankings
scraper); a rumor seen before any date holder is skipped outright. -/
theorem c9_thm :
    (∀ (cutoff : Int) (players : List String) (f : Frag),
      f.date = none → rowOfFrag cutoff players f = none)
    ∧ (∀ (cutoff : Int) (players : List String) (frags : List Frag),
        ∀ r ∈ (scrapePageRumors cutoff players frags).1,
          ∃ f ∈ frags, f.date = some r.date)
    ∧ (∀ (known : List String) (elems : List PageElem),
        ∀ rec ∈ (processPageElems known elems).1,
          PageElem.dateHolder (some rec.date) ∈ elems)
    ∧ (∀ (known : List String) (tags : List String)
        (text textHtml outlet sourceUrl : String) (rest : List PageElem),
        processPageElems known
            (PageElem.rumor tags text textHtml outlet sourceUrl :: rest)
          = processPageElems known rest) := by
  refine ⟨?_, ?_, ?_, ?_⟩
  · intro cutoff players f hd
    rw [rowOfFrag, hd]
  · intro cutoff players frags r hr
    rw [scrapePageRumors_fst] at hr
    rcases List.mem_filterMap.mp hr with ⟨f, hf, he⟩
    exact ⟨f, hf, rowOfFrag_date cutoff players f r he⟩
  · intro known elems rec hrec
    rcases processElems_date_from_holder known elems [] none none rec hrec
      with h | h | h
    · simp at h
    · exact absurd h (by simp)
    · exact h
  · intro known tags text textHtml outlet sourceUrl rest
    rfl

/-- Witness for C9 at concrete inputs. -/
theorem c9_witness :
    rowOfFrag 0 [] ⟨none, "x", none, ""⟩ = none
      ∧ (∃ f ∈ ([⟨some 5, "LeBron James traded", none, ""⟩] : List Frag),
          f.date = some (⟨5, "LeBron James", "LeBron James traded", "",
            "LeBron James traded"⟩ : RumorRow).date)
      ∧ PageElem.dateHolder
          (some (⟨4, "LeBron James", "t", "h", "o", "u"⟩ : RankRumor).date)
          ∈ [PageElem.dateHolder (some 4),
             PageElem.rumor ["LeBron James"] "t" "h" "o" "u"] := by
  refine ⟨c9_thm.1 0 [] ⟨none, "x", none, ""⟩ rfl, ?_, ?_⟩
  · exact c9_thm.2.1 0 ["LEBRON JAMES"]
      [⟨some 5, "LeBron James traded", none, ""⟩]
      ⟨5, "LeBron James", "LeBron James traded", "", "LeBron James traded"⟩
      (by decide)
  · exact c9_thm.2.2.1 ["lebron james"]
      [PageElem.dateHolder (some 4),
       PageElem.rumor ["LeBron James"] "t" "h" "o" "u"]
      ⟨4, "LeBron James", "t", "h", "o", "u"⟩
      (by decide)

/-! ## Claim C10 -/

theorem fixRow_resolved (row : CsvRow) (fullNames : List String)
    (lastToNames : List (String × List String))
    (h1 : pyStrip row.player ≠ "")
    (h2 : pyUpper (pyStrip row.player) ≠ PLACEHOLDER) :
    inferPlayerForRow row fullNames lastToNames = pyStrip row.player
    ∧ fixRow row fullNames lastToNames
        = { row with player := pyStrip row.player } := by
  have ha : inferPlayerForRow row fullNames lastToNames = pyStrip row.player := by
    simp only [inferPlayerForRow]
    rw [if_pos ⟨h1, h2⟩]
  refine ⟨ha, ?_⟩
  rw [fixRow, ha, if_neg (by rw [pyStrip_idem]; exact h1)]

/-- Claim C10, as stated, is false: a player field that is non-empty and not
the placeholder but carries surrounding whitespace is returned stripped, not
unchanged. -/
theorem c10_counterexample :
    inferPlayerForRow ⟨" LeBron James ", "", ""⟩ [] [] = "LeBron James"
      ∧ (⟨" LeBron James ", "", ""⟩ : CsvRow).player = " LeBron James "
      ∧ ("LeBron James" : String) ≠ " LeBron James " := by
  exact ⟨by decide, rfl, by decide⟩

/-- Claim C10 (amended): for a row whose player field strips to a non-empty
value other than the placeholder (case-insensitively), the fixing pass
returns that stripped value — so it leaves already-stripped resolved values
unchanged, and applying the pass to its own output is a no-op on such
rows. -/
theorem c10_amended_thm (row : CsvRow) (fullNames : List String)
    (lastToNames : List (String × List String))
    (h1 : pyStrip row.player ≠ "")
    (h2 : pyUpper (pyStrip row.player) ≠ PLACEHOLDER) :
    inferPlayerForRow row fullNames lastToNames = pyStrip row.player
    ∧ fixRow row fullNames lastToNames
        = { row with player := pyStrip row.player }
    ∧ fixRow (fixRow row fullNames lastToNames) fullNames lastToNames
        = fixRow row fullNames lastToNames := by
  obtain ⟨ha, hb⟩ := fixRow_resolved row fullNames lastToNames h1 h2
  refine ⟨ha, hb, ?_⟩
  rw [hb]
  have h1b : pyStrip ({ row with player := pyStrip row.player } : CsvRow).player
      ≠ "" := by
    show pyStrip (pyStrip row.player) ≠ ""
    rw [pyStrip_idem]
    exact h1
  have h2b : pyUpper (pyStrip
      ({ row with player := pyStrip row.player } : CsvRow).player)
      ≠ PLACEHOLDER := by
    show pyUpper (pyStrip (pyStrip row.player)) ≠ PLACEHOLDER
    rw [pyStrip_idem]
    exact h2
  obtain ⟨_, hb2⟩ :=
    fixRow_resolved { row with player := pyStrip row.player } fullNames
      lastToNames h1b h2b
  rw [hb2]
  show ({ row with player := pyStrip (pyStrip row.player) } : CsvRow)
      = { row with player := pyStrip row.player }
  rw [pyStrip_idem]

/-- Witness for C10 at a concrete resolved row. -/
theorem c10_witness :
    inferPlayerForRow ⟨"LeBron James", "", ""⟩ [] [] = pyStrip "LeBron James"
      ∧ fixRow ⟨"LeBron James", "", ""⟩ [] []
          = { (⟨"LeBron James", "", ""⟩ : CsvRow) with
              player := pyStrip "LeBron James" }
      ∧ fixRow (fixRow ⟨"LeBron James", "", ""⟩ [] []) [] []
          = fixRow ⟨"LeBron James", "", ""⟩ [] [] :=
  c10_amended_thm ⟨"LeBron James", "", ""⟩ [] [] (by decide) (by decide)
